import Mathlib

/-! Verification of the KNMI solar/region pipeline (NL-solar repository).

The definitions below are shallow embeddings of the Python sources:
src/knmi_qg_regions.py (circular mean, region aggregation, region history,
publish coordination in run_once), knmi_station_data/fetch_station_metrics.py
(station history and history-document loading) and knmi_to_grafana.py
(refresh of the shared last-good snapshot).

Modelling conventions: scalar station metrics and JSON numbers are
rationals; directional angles are real numbers; timestamps are their
ISO-8601 strings, because the code compares and sorts those strings
directly; a pandas null (NaN/None) is Option.none. Python list.sort is a
stable sort by key and is embedded as List.insertionSort on a
less-or-equal key relation, which is stable in exactly the same way. -/

namespace Solar

universe u
variable {α : Type u}

/-! ### Python list slicing

Python slicing l[-n:] keeps the last n elements when n is at least 1 but
yields the whole list when n = 0; takeLast mirrors both behaviours. -/

def takeLast (n : Nat) (l : List α) : List α :=
  if n = 0 then l else l.drop (l.length - n)

theorem takeLast_sublist (n : Nat) (l : List α) : (takeLast n l).Sublist l := by
  unfold takeLast
  split
  · exact List.Sublist.refl l
  · exact List.drop_sublist _ l

theorem takeLast_eq_self {n : Nat} {l : List α} (h : l.length ≤ n) :
    takeLast n l = l := by
  unfold takeLast
  split
  · rfl
  · have : l.length - n = 0 := by omega
    rw [this, List.drop_zero]

theorem length_takeLast_le {n : Nat} (hn : 1 ≤ n) (l : List α) :
    (takeLast n l).length ≤ n := by
  unfold takeLast
  split
  · omega
  · rw [List.length_drop]; omega

theorem takeLast_ne_nil {n : Nat} {l : List α} (h : l ≠ []) :
    takeLast n l ≠ [] := by
  unfold takeLast
  split
  · exact h
  · have hlen : 0 < l.length := List.length_pos.mpr h
    intro hx
    have := congrArg List.length hx
    rw [List.length_drop] at this
    simp at this
    omega

theorem exists_prefix_takeLast (n : Nat) (l : List α) :
    ∃ p, p ++ takeLast n l = l := by
  unfold takeLast
  split
  · exact ⟨[], rfl⟩
  · exact ⟨l.take (l.length - n), List.take_append_drop _ l⟩

/-! ### The shared rolling-window update

Both update_region_history (knmi_qg_regions.py lines 192 to 201) and
update_station_history (fetch_station_metrics.py lines 294 to 299) run the
same four steps on the history window of one entity: drop every prior
entry whose observation_time equals the incoming observation time, append
the new entry, sort ascending by the observation_time string, and keep the
last max_points entries. windowUpdate embeds those lines, generic in the
entry type with a key function extracting the timestamp string. -/

def keyLe (key : α → String) (a b : α) : Prop := key a ≤ key b

def keyLt (key : α → String) (a b : α) : Prop := key a < key b

instance (key : α → String) : DecidableRel (keyLe key) := fun a b =>
  decidable_of_iff ((key a).toList ≤ (key b).toList)
    String.le_iff_toList_le.symm

instance (key : α → String) : IsTotal α (keyLe key) :=
  ⟨fun a b => le_total (key a) (key b)⟩

instance (key : α → String) : IsTrans α (keyLe key) :=
  ⟨fun _ _ _ h1 h2 => le_trans h1 h2⟩

instance (key : α → String) : IsTrans α (keyLt key) :=
  ⟨fun _ _ _ h1 h2 => lt_trans h1 h2⟩

instance (key : α → String) : IsAntisymm α (keyLt key) :=
  ⟨fun _ _ h1 h2 => absurd (lt_trans h1 h2) (lt_irrefl _)⟩

def sortByKey (key : α → String) (l : List α) : List α :=
  List.insertionSort (keyLe key) l

def windowUpdate (key : α → String) (prior : List α) (entry : α)
    (t : String) (maxPoints : Nat) : List α :=
  takeLast maxPoints
    (sortByKey key ((prior.filter fun h => key h != t) ++ [entry]))

theorem sortByKey_sorted (key : α → String) (l : List α) :
    List.Sorted (keyLe key) (sortByKey key l) :=
  List.sorted_insertionSort (keyLe key) l

theorem sortByKey_perm (key : α → String) (l : List α) :
    (sortByKey key l).Perm l :=
  List.perm_insertionSort (keyLe key) l

theorem windowUpdate_sorted (key : α → String) (prior : List α) (entry : α)
    (t : String) (maxPoints : Nat) :
    List.Sorted (keyLe key) (windowUpdate key prior entry t maxPoints) :=
  (sortByKey_sorted key _).sublist (takeLast_sublist _ _)

theorem windowUpdate_ne_nil (key : α → String) (prior : List α) (entry : α)
    (t : String) (maxPoints : Nat) :
    windowUpdate key prior entry t maxPoints ≠ [] := by
  apply takeLast_ne_nil
  intro h
  have := (sortByKey_perm key ((prior.filter fun h => key h != t) ++ [entry])).length_eq
  rw [h] at this
  simp at this

theorem windowUpdate_length_le (key : α → String) (prior : List α) (entry : α)
    (t : String) {maxPoints : Nat} (hN : 1 ≤ maxPoints) :
    (windowUpdate key prior entry t maxPoints).length ≤ maxPoints :=
  length_takeLast_le hN _

theorem countP_key_sort_filter (key : α → String) (prior : List α) (entry : α)
    (t : String) :
    (sortByKey key ((prior.filter fun h => key h != t) ++ [entry])).countP
      (fun h => key h == t) =
      if key entry = t then 1 else 0 := by
  rw [(sortByKey_perm key _).countP_eq, List.countP_append]
  have hf : (List.filter (fun h => key h != t) prior).countP (fun h => key h == t) = 0 := by
    rw [List.countP_eq_zero]
    intro a ha
    have := (List.mem_filter.mp ha).2
    simp only [bne_iff_ne, ne_eq] at this
    simp [this]
  rw [hf]
  by_cases h : key entry = t <;> simp [List.countP_cons, h]

theorem countP_key_windowUpdate_le_one (key : α → String) (prior : List α)
    (entry : α) (t : String) (maxPoints : Nat) :
    (windowUpdate key prior entry t maxPoints).countP (fun h => key h == t) ≤ 1 := by
  have h1 := (takeLast_sublist maxPoints
    (sortByKey key ((prior.filter fun h => key h != t) ++ [entry]))).countP_le
    (fun h => key h == t)
  have h2 := countP_key_sort_filter key prior entry t
  unfold windowUpdate
  split at h2 <;> omega

theorem countP_two_le {p : α → Bool} {l : List α} {a b : α} (ha : a ∈ l)
    (hb : b ∈ l) (hab : a ≠ b) (hpa : p a) (hpb : p b) : 2 ≤ l.countP p := by
  obtain ⟨s, u, rfl⟩ := List.append_of_mem ha
  have hb2 : b ∈ s ∨ b ∈ u := by
    rcases List.mem_append.mp hb with h | h
    · exact Or.inl h
    · rcases List.mem_cons.mp h with h | h
      · exact absurd h.symm hab
      · exact Or.inr h
  have hcount : (s ++ a :: u).countP p = s.countP p + (u.countP p + 1) := by
    rw [List.countP_append, List.countP_cons_of_pos _ _ hpa]
  rcases hb2 with h | h
  · have : 0 < s.countP p := List.countP_pos_iff.mpr ⟨b, h, hpb⟩
    omega
  · have : 0 < u.countP p := List.countP_pos_iff.mpr ⟨b, h, hpb⟩
    omega

/-! Structural lemmas about stable insertion on a sorted list, used to show
that re-running the same history update is a no-op. -/

theorem orderedInsert_of_forall_le {r : α → α → Prop} [DecidableRel r] {a : α} :
    ∀ {L : List α}, (∀ x ∈ L, r a x) → List.orderedInsert r a L = a :: L
  | [], _ => rfl
  | b :: l, h => by
    unfold List.orderedInsert
    rw [if_pos (h b (List.mem_cons_self b l))]

theorem orderedInsert_cons_notle {r : α → α → Prop} [DecidableRel r] {a b : α}
    (l : List α) (h : ¬r a b) :
    List.orderedInsert r a (b :: l) = b :: List.orderedInsert r a l := by
  simp only [List.orderedInsert, if_neg h]

theorem orderedInsert_append_singleton {r : α → α → Prop} [DecidableRel r]
    {a e : α} (h : r a e) :
    ∀ M : List α, List.orderedInsert r a (M ++ [e]) = List.orderedInsert r a M ++ [e]
  | [] => by
    simp only [List.nil_append]
    rw [List.orderedInsert_of_le r [] h]
    rfl
  | b :: M => by
    rw [List.cons_append]
    by_cases hab : r a b
    · rw [List.orderedInsert_of_le r (M ++ [e]) hab, List.orderedInsert_of_le r M hab]
      rfl
    · rw [orderedInsert_cons_notle (M ++ [e]) hab, orderedInsert_cons_notle M hab,
        orderedInsert_append_singleton h M]
      rfl

theorem insertionSort_append_singleton {r : α → α → Prop} [DecidableRel r] {e : α} :
    ∀ {L : List α}, (∀ x ∈ L, r x e) →
      List.insertionSort r (L ++ [e]) = List.insertionSort r L ++ [e]
  | [], _ => rfl
  | b :: L, h => by
    have ih := insertionSort_append_singleton (r := r) (e := e)
      (L := L) (fun x hx => h x (List.mem_cons_of_mem b hx))
    show List.orderedInsert r b (List.insertionSort r (L ++ [e])) = _
    rw [ih, orderedInsert_append_singleton (h b (List.mem_cons_self b L))]
    rfl

theorem insertionSort_append_singleton_front {r : α → α → Prop} [DecidableRel r]
    {e : α} : ∀ {L : List α}, List.Sorted r L → (∀ x ∈ L, ¬r x e) →
      List.insertionSort r (L ++ [e]) = e :: L
  | [], _, _ => rfl
  | b :: L, hs, h => by
    have ih := insertionSort_append_singleton_front (r := r) (e := e) (L := L)
      hs.of_cons (fun x hx => h x (List.mem_cons_of_mem b hx))
    show List.orderedInsert r b (List.insertionSort r (L ++ [e])) = _
    rw [ih, orderedInsert_cons_notle L (h b (List.mem_cons_self b L)),
      orderedInsert_of_forall_le (L := L) (List.rel_of_sorted_cons hs)]

theorem insertionSort_middle {key : α → String} {e : α} :
    ∀ {A B : List α}, List.Sorted (keyLe key) (A ++ e :: B) →
      (∀ x ∈ B, ¬keyLe key x e) →
      List.insertionSort (keyLe key) ((A ++ B) ++ [e]) = A ++ e :: B
  | [], B, hs, h => by
    simpa using insertionSort_append_singleton_front (r := keyLe key) hs.of_cons h
  | a :: A, B, hs, h => by
    have ih := insertionSort_middle (A := A) (B := B) hs.of_cons h
    show List.orderedInsert (keyLe key) a
      (List.insertionSort (keyLe key) ((A ++ B) ++ [e])) = _
    rw [ih, orderedInsert_of_forall_le (L := A ++ e :: B)
      (List.rel_of_sorted_cons hs)]
    rfl

/-- Re-running the history update with the identical entry is a no-op:
the second filter removes exactly the entry added by the first run, and the
stable sort puts it back in the same position. -/
theorem windowUpdate_idem (key : α → String) (prior : List α) (entry : α)
    {maxPoints : Nat} (hN : 1 ≤ maxPoints) :
    windowUpdate key (windowUpdate key prior entry (key entry) maxPoints)
        entry (key entry) maxPoints =
      windowUpdate key prior entry (key entry) maxPoints := by
  set t := key entry with ht
  set S := sortByKey key ((prior.filter fun h => key h != t) ++ [entry]) with hS
  have hSsorted : List.Sorted (keyLe key) S := sortByKey_sorted key _
  have hSmem : entry ∈ S :=
    (sortByKey_perm key _).mem_iff.mpr (List.mem_append.mpr (Or.inr (List.mem_singleton.mpr rfl)))
  have hScount : S.countP (fun h => key h == t) = 1 := by
    have := countP_key_sort_filter key prior entry t
    rw [if_pos ht.symm] at this
    exact this
  set w1 := windowUpdate key prior entry t maxPoints with hw1
  have hw1S : w1 = takeLast maxPoints S := rfl
  have hw1sorted : List.Sorted (keyLe key) w1 :=
    windowUpdate_sorted key prior entry t maxPoints
  have hw1sub : w1.Sublist S := takeLast_sublist _ _
  have hw1len : w1.length ≤ maxPoints := windowUpdate_length_le key _ _ _ hN
  by_cases hmem : entry ∈ w1
  · -- the appended entry survived truncation
    obtain ⟨A, B, hAB⟩ := List.append_of_mem hmem
    have hABsorted : List.Sorted (keyLe key) (A ++ entry :: B) := hAB ▸ hw1sorted
    have hcountw1 : (A ++ entry :: B).countP (fun h => key h == t) ≤ 1 := by
      have h2 := hw1sub.countP_le (fun h => key h == t)
      rw [hScount] at h2
      exact hAB ▸ h2
    have hentryc : (fun h => key h == t) entry = true := by simp [ht]
    have hsplitc : (A ++ entry :: B).countP (fun h => key h == t) =
        A.countP (fun h => key h == t) + (B.countP (fun h => key h == t) + 1) := by
      rw [List.countP_append,
        List.countP_cons_of_pos (fun h => key h == t) (a := entry) B hentryc]
    have hAcount : A.countP (fun h => key h == t) = 0 := by omega
    have hBcount : B.countP (fun h => key h == t) = 0 := by omega
    have hAne : ∀ x ∈ A, key x ≠ t := by
      intro x hx
      have := List.countP_eq_zero.mp hAcount x hx
      simpa using this
    have hBne : ∀ x ∈ B, key x ≠ t := by
      intro x hx
      have := List.countP_eq_zero.mp hBcount x hx
      simpa using this
    have hBstrict : ∀ x ∈ B, ¬keyLe key x entry := by
      intro x hx hle
      have hpair : List.Pairwise (keyLe key) (A ++ entry :: B) := hABsorted
      have hsuffix : List.Sorted (keyLe key) (entry :: B) :=
        (List.pairwise_append.mp hpair).2.1
      have h1 : keyLe key entry x := List.rel_of_sorted_cons hsuffix x hx
      have hxt : key x = t :=
        le_antisymm (by simpa [keyLe, ← ht] using hle) (by simpa [keyLe, ← ht] using h1)
      exact hBne x hx hxt
    have hfilter : (A ++ entry :: B).filter (fun h => key h != t) = A ++ B := by
      rw [List.filter_append, List.filter_cons]
      have hef : (key entry != t) = false := by simp [ht]
      rw [hef]
      simp only [Bool.false_eq_true, if_false]
      rw [List.filter_eq_self.mpr (fun x hx => by simpa using hAne x hx),
        List.filter_eq_self.mpr (fun x hx => by simpa using hBne x hx)]
    have hsort := insertionSort_middle hABsorted hBstrict
    have hlen2 : (A ++ entry :: B).length ≤ maxPoints := hAB ▸ hw1len
    rw [hAB]
    show takeLast maxPoints (sortByKey key
      (((A ++ entry :: B).filter fun h => key h != t) ++ [entry])) = A ++ entry :: B
    rw [hfilter]
    show takeLast maxPoints
      (List.insertionSort (keyLe key) ((A ++ B) ++ [entry])) = A ++ entry :: B
    rw [hsort]
    exact takeLast_eq_self hlen2
  · -- the appended entry was evicted: every retained key is strictly newer
    have hw1ne : ∀ x ∈ w1, key x ≠ t := by
      intro x hx hxt
      have hxS : x ∈ S := hw1sub.subset hx
      have hne : x ≠ entry := fun h => hmem (h ▸ hx)
      have h2 := countP_two_le (p := fun h => key h == t) hxS hSmem hne
        (by simp [hxt]) (by simp [ht])
      omega
    have hfilter1 : w1.filter (fun h => key h != t) = w1 :=
      List.filter_eq_self.mpr (fun x hx => by simpa using hw1ne x hx)
    have hNS : maxPoints < S.length := by
      by_contra hcon
      push_neg at hcon
      have heq : w1 = S := hw1S.trans (takeLast_eq_self hcon)
      exact hmem (by rw [heq]; exact hSmem)
    have hNne : maxPoints ≠ 0 := by omega
    have hw1drop : w1 = S.drop (S.length - maxPoints) := by
      rw [hw1S]
      unfold takeLast
      rw [if_neg hNne]
    have hw1len2 : w1.length = maxPoints := by
      rw [hw1drop, List.length_drop]
      omega
    have hentryP : entry ∈ S.take (S.length - maxPoints) := by
      have hone : entry ∈ S.take (S.length - maxPoints) ++ S.drop (S.length - maxPoints) := by
        rw [List.take_append_drop]
        exact hSmem
      rcases List.mem_append.mp hone with h | h
      · exact h
      · rw [← hw1drop] at h
        exact absurd h hmem
    have hstrict : ∀ x ∈ w1, ¬keyLe key x entry := by
      intro x hx hle
      have hpair : List.Pairwise (keyLe key)
          (S.take (S.length - maxPoints) ++ S.drop (S.length - maxPoints)) := by
        rw [List.take_append_drop]
        exact hSsorted
      have hxd : x ∈ S.drop (S.length - maxPoints) := by
        rw [← hw1drop]
        exact hx
      have h1 : keyLe key entry x :=
        (List.pairwise_append.mp hpair).2.2 entry hentryP x hxd
      have hxt : key x = t :=
        le_antisymm (by simpa [keyLe, ← ht] using hle) (by simpa [keyLe, ← ht] using h1)
      exact hw1ne x hx hxt
    have hsort := insertionSort_append_singleton_front (r := keyLe key) hw1sorted hstrict
    show takeLast maxPoints (sortByKey key
      ((w1.filter fun h => key h != t) ++ [entry])) = w1
    rw [hfilter1]
    show takeLast maxPoints (List.insertionSort (keyLe key) (w1 ++ [entry])) = w1
    rw [hsort]
    unfold takeLast
    rw [if_neg hNne]
    have hlc : (entry :: w1).length - maxPoints = 1 := by
      simp [hw1len2]
    rw [hlc]
    rfl

/-- When the incoming entry is at least as recent as every prior entry, it
always survives truncation, so the updated window holds exactly one entry
carrying its timestamp. -/
theorem countP_key_windowUpdate_eq_one (key : α → String) {prior : List α}
    (entry : α) (hmax : ∀ h ∈ prior, key h ≤ key entry) (maxPoints : Nat) :
    (windowUpdate key prior entry (key entry) maxPoints).countP
      (fun h => key h == key entry) = 1 := by
  set t := key entry with ht
  have hfl : ∀ x ∈ (prior.filter fun h => key h != t), keyLe key x entry := by
    intro x hx
    exact hmax x (List.mem_filter.mp hx).1
  have hsort : sortByKey key ((prior.filter fun h => key h != t) ++ [entry]) =
      sortByKey key (prior.filter fun h => key h != t) ++ [entry] :=
    insertionSort_append_singleton hfl
  have hle1 := countP_key_windowUpdate_le_one key prior entry t maxPoints
  have hmementry : entry ∈ windowUpdate key prior entry t maxPoints := by
    unfold windowUpdate
    rw [hsort]
    set M := sortByKey key (prior.filter fun h => key h != t) with hM
    unfold takeLast
    by_cases h0 : maxPoints = 0
    · rw [if_pos h0]
      exact List.mem_append.mpr (Or.inr (List.mem_singleton.mpr rfl))
    · rw [if_neg h0]
      have hlenM : (M ++ [entry]).length - maxPoints ≤ M.length := by
        rw [List.length_append]
        simp only [List.length_singleton]
        omega
      rw [List.drop_append_of_le_length hlenM]
      exact List.mem_append.mpr (Or.inr (List.mem_singleton.mpr rfl))
  have hge1 : 0 < (windowUpdate key prior entry t maxPoints).countP
      (fun h => key h == t) :=
    List.countP_pos_iff.mpr ⟨entry, hmementry, by simp [ht]⟩
  omega

/-! ### Eviction keeps exactly the most recent entries

The lemmas below characterize which elements of a sorted list survive the
final truncation, and show that truncating before inserting the next entry
never changes the retained suffix, provided all timestamps are distinct.
They culminate in fold_windowUpdate: feeding a stream of distinct-time
entries through the update from an empty window leaves precisely the last
maxPoints entries of the time-sorted stream. -/

theorem countP_lt_length_of_mem {p : α → Bool} {l : List α} {x : α} (hx : x ∈ l)
    (hpx : p x = false) : l.countP p < l.length := by
  obtain ⟨s, u, rfl⟩ := List.append_of_mem hx
  rw [List.countP_append, List.countP_cons, List.length_append, List.length_cons]
  have h1 := List.countP_le_length p (l := s)
  have h2 := List.countP_le_length p (l := u)
  rw [hpx]
  simp only [Bool.false_eq_true, if_false]
  omega

theorem takeLast_cons {N : Nat} (hN : N ≠ 0) {l : List α} (h : N ≤ l.length)
    (a : α) : takeLast N (a :: l) = takeLast N l := by
  unfold takeLast
  rw [if_neg hN, if_neg hN]
  have hlen : (a :: l).length - N = (l.length - N) + 1 := by
    rw [List.length_cons]
    omega
  rw [hlen, List.drop_succ_cons]

theorem mem_takeLast_iff_sorted {key : α → String} {N : Nat} (hN : 1 ≤ N) :
    ∀ {S : List α}, List.Sorted (keyLt key) S → ∀ {x : α},
      (x ∈ takeLast N S ↔
        x ∈ S ∧ S.countP (fun y => decide (key x < key y)) < N)
  | [], _, x => by
    simp [takeLast]
  | a :: S, hs, x => by
    by_cases hlen : (a :: S).length ≤ N
    · rw [takeLast_eq_self hlen]
      constructor
      · intro hx
        refine ⟨hx, ?_⟩
        have hlt := countP_lt_length_of_mem (p := fun y => decide (key x < key y))
          hx (by simp)
        omega
      · exact fun h => h.1
    · push_neg at hlen
      have hSlen : N ≤ S.length := by
        rw [List.length_cons] at hlen
        omega
      rw [takeLast_cons (by omega) hSlen a,
        mem_takeLast_iff_sorted hN hs.of_cons]
      have hcons : (a :: S).countP (fun y => decide (key x < key y)) =
          S.countP (fun y => decide (key x < key y)) +
            if key x < key a then 1 else 0 := by
        rw [List.countP_cons]
        simp
      constructor
      · rintro ⟨hm, hc⟩
        refine ⟨List.mem_cons_of_mem a hm, ?_⟩
        have hax : keyLt key a x := List.rel_of_sorted_cons hs x hm
        rw [hcons, if_neg (fun hcon => absurd (lt_trans hax hcon) (lt_irrefl _))]
        omega
      · rintro ⟨hm, hc⟩
        rcases List.mem_cons.mp hm with rfl | hm2
        · exfalso
          have hall : S.countP (fun y => decide (key x < key y)) = S.length :=
            List.countP_eq_length.mpr (fun y hy => by
              simp only [decide_eq_true_eq]
              exact List.rel_of_sorted_cons hs y hy)
          rw [hcons, if_neg (lt_irrefl _)] at hc
          omega
        · refine ⟨hm2, ?_⟩
          rw [hcons] at hc
          omega

theorem sortByKey_strict {key : α → String} {l : List α}
    (h : l.Pairwise fun a b => key a ≠ key b) :
    List.Sorted (keyLt key) (sortByKey key l) := by
  have hle := sortByKey_sorted key l
  have hne : (sortByKey key l).Pairwise (fun a b => key a ≠ key b) :=
    ((sortByKey_perm key l).pairwise_iff (fun hab => Ne.symm hab)).mpr h
  exact (hle.and hne).imp (fun hab => lt_of_le_of_ne hab.1 hab.2)

theorem nodup_of_strict {key : α → String} {l : List α}
    (h : List.Sorted (keyLt key) l) : l.Nodup :=
  h.imp (fun hab heq => absurd (heq ▸ hab) (lt_irrefl _))

/-- Truncating a sorted window before inserting a fresh-time entry keeps the
same retained suffix as inserting into the untruncated list: the discarded
old entries could never displace anything in the final last-N cut. -/
theorem takeLast_sort_append_takeLast {key : α → String} {S : List α}
    (hs : List.Sorted (keyLt key) S) {e : α} (he : ∀ x ∈ S, key x ≠ key e)
    {N : Nat} (hN : 1 ≤ N) :
    takeLast N (sortByKey key (takeLast N S ++ [e])) =
      takeLast N (sortByKey key (S ++ [e])) := by
  have hNne : N ≠ 0 := by omega
  have hQ : takeLast N S = S.drop (S.length - N) := by
    unfold takeLast
    rw [if_neg hNne]
  set k := S.length - N with hk
  have hsplitS : S.take k ++ S.drop k = S := List.take_append_drop k S
  have hSne : S.Pairwise (fun a b => key a ≠ key b) :=
    hs.imp (fun hab => ne_of_lt hab)
  have hSe : (S ++ [e]).Pairwise (fun a b => key a ≠ key b) := by
    rw [List.pairwise_append]
    refine ⟨hSne, List.pairwise_singleton _ _, fun a ha b hb => ?_⟩
    rw [List.mem_singleton.mp hb]
    exact he a ha
  have hQe : (S.drop k ++ [e]).Pairwise (fun a b => key a ≠ key b) := by
    rw [List.pairwise_append]
    refine ⟨hSne.sublist (List.drop_sublist _ _), List.pairwise_singleton _ _,
      fun a ha b hb => ?_⟩
    rw [List.mem_singleton.mp hb]
    exact he a ((List.drop_sublist _ _).subset ha)
  have hsortQ : List.Sorted (keyLt key) (sortByKey key (S.drop k ++ [e])) :=
    sortByKey_strict hQe
  have hsortS2 : List.Sorted (keyLt key) (sortByKey key (S ++ [e])) :=
    sortByKey_strict hSe
  have hL : List.Sorted (keyLt key) (takeLast N (sortByKey key (S.drop k ++ [e]))) :=
    hsortQ.sublist (takeLast_sublist _ _)
  have hR : List.Sorted (keyLt key) (takeLast N (sortByKey key (S ++ [e]))) :=
    hsortS2.sublist (takeLast_sublist _ _)
  have hcross : ∀ a ∈ S.take k, ∀ b ∈ S.drop k, keyLt key a b := by
    have hpair : List.Pairwise (keyLt key) (S.take k ++ S.drop k) := by
      rw [hsplitS]
      exact hs
    exact (List.pairwise_append.mp hpair).2.2
  have hcntS : ∀ x : α, S.countP (fun y => decide (key x < key y)) =
      (S.take k).countP (fun y => decide (key x < key y)) +
        (S.drop k).countP (fun y => decide (key x < key y)) := by
    intro x
    conv_lhs => rw [← hsplitS]
    rw [List.countP_append]
  have hiff : ∀ x, (x ∈ S.drop k ++ [e] ∧
      (S.drop k ++ [e]).countP (fun y => decide (key x < key y)) < N) ↔
      (x ∈ S ++ [e] ∧ (S ++ [e]).countP (fun y => decide (key x < key y)) < N) := by
    intro x
    rw [List.countP_append, List.countP_append, hcntS]
    constructor
    · rintro ⟨hm, hc⟩
      rcases List.mem_append.mp hm with hmd | hme
      · have htake0 : (S.take k).countP (fun y => decide (key x < key y)) = 0 := by
          rw [List.countP_eq_zero]
          intro y hy
          simp only [decide_eq_true_eq]
          exact fun hcon => absurd (lt_trans (hcross y hy x hmd) hcon) (lt_irrefl _)
        refine ⟨List.mem_append.mpr (Or.inl ((List.drop_sublist _ _).subset hmd)), ?_⟩
        omega
      · rw [List.mem_singleton.mp hme]
        refine ⟨List.mem_append.mpr (Or.inr (List.mem_singleton.mpr rfl)), ?_⟩
        rw [List.mem_singleton.mp hme] at hc
        by_cases hSN : S.length ≤ N
        · have hk0 : k = 0 := by omega
          rw [hk0, List.take_zero, List.countP_nil, List.drop_zero]
          rw [hk0, List.drop_zero] at hc
          omega
        · have hdroplen : (S.drop k).length = N := by
            rw [List.length_drop]
            omega
          have hee : ([e].countP fun y => decide (key e < key y)) = 0 := by
            simp
          rw [hee] at hc
          have hexq : ∃ q ∈ S.drop k, ¬key e < key q := by
            by_contra hall
            push_neg at hall
            have : (S.drop k).countP (fun y => decide (key e < key y)) =
                (S.drop k).length :=
              List.countP_eq_length.mpr (fun y hy => by
                simp only [decide_eq_true_eq]
                exact hall y hy)
            omega
          obtain ⟨q, hq, hqe⟩ := hexq
          have htake0 : (S.take k).countP (fun y => decide (key e < key y)) = 0 := by
            rw [List.countP_eq_zero]
            intro y hy
            simp only [decide_eq_true_eq]
            intro hcon
            have h1 : key y < key q := hcross y hy q hq
            have h2 : key q ≤ key e := not_lt.mp hqe
            exact absurd (lt_trans hcon (lt_of_lt_of_le h1 h2)) (lt_irrefl _)
          omega
    · rintro ⟨hm, hc⟩
      rcases List.mem_append.mp hm with hmS | hme
      · have hcS : S.countP (fun y => decide (key x < key y)) < N := by
          rw [hcntS]
          omega
        have hmQ : x ∈ takeLast N S :=
          (mem_takeLast_iff_sorted hN hs).mpr ⟨hmS, hcS⟩
        rw [hQ] at hmQ
        refine ⟨List.mem_append.mpr (Or.inl hmQ), ?_⟩
        omega
      · rw [List.mem_singleton.mp hme]
        have hdsub := (List.drop_sublist k S).countP_le
          (fun y => decide (key e < key y))
        rw [List.mem_singleton.mp hme] at hc
        refine ⟨List.mem_append.mpr (Or.inr (List.mem_singleton.mpr rfl)), ?_⟩
        omega
  have hnodL := nodup_of_strict hL
  have hnodR := nodup_of_strict hR
  have hperm : (takeLast N (sortByKey key (S.drop k ++ [e]))).Perm
      (takeLast N (sortByKey key (S ++ [e]))) := by
    rw [List.perm_ext_iff_of_nodup hnodL hnodR]
    intro x
    rw [mem_takeLast_iff_sorted hN hsortQ, mem_takeLast_iff_sorted hN hsortS2,
      (sortByKey_perm key (S.drop k ++ [e])).mem_iff,
      (sortByKey_perm key (S.drop k ++ [e])).countP_eq,
      (sortByKey_perm key (S ++ [e])).mem_iff,
      (sortByKey_perm key (S ++ [e])).countP_eq]
    exact hiff x
  rw [hQ]
  exact List.eq_of_perm_of_sorted hperm hL hR

/-- Streaming distinct-time entries through the update from an empty window
retains exactly the last maxPoints entries of the time-sorted stream. -/
theorem fold_windowUpdate (key : α → String) (N : Nat) (hN : 1 ≤ N) :
    ∀ {es : List α}, es.Pairwise (fun a b => key a ≠ key b) →
      es.foldl (fun w e => windowUpdate key w e (key e) N) [] =
        takeLast N (sortByKey key es) := by
  intro es
  induction es using List.reverseRecOn with
  | nil =>
    intro _
    simp [takeLast, sortByKey]
  | append_singleton es e ih =>
    intro hp
    have hpe := List.pairwise_append.mp hp
    have hes : es.Pairwise (fun a b => key a ≠ key b) := hpe.1
    have hee : ∀ x ∈ es, key x ≠ key e := fun x hx =>
      hpe.2.2 x hx e (List.mem_singleton.mpr rfl)
    rw [List.foldl_append, List.foldl_cons, List.foldl_nil, ih hes]
    have hfilter : ((takeLast N (sortByKey key es)).filter
        fun h => key h != key e) = takeLast N (sortByKey key es) := by
      rw [List.filter_eq_self]
      intro x hx
      have hxes : x ∈ es :=
        (sortByKey_perm key es).subset ((takeLast_sublist _ _).subset hx)
      simpa using hee x hxes
    show takeLast N (sortByKey key
      (((takeLast N (sortByKey key es)).filter fun h => key h != key e) ++ [e])) = _
    rw [hfilter]
    have hsortes : List.Sorted (keyLt key) (sortByKey key es) := sortByKey_strict hes
    have hkeys : ∀ x ∈ sortByKey key es, key x ≠ key e := fun x hx =>
      hee x ((sortByKey_perm key es).subset hx)
    rw [takeLast_sort_append_takeLast hsortes hkeys hN]
    -- sorting the sorted stream with e appended equals sorting the raw stream
    have hperm2 : (sortByKey key (sortByKey key es ++ [e])).Perm
        (sortByKey key (es ++ [e])) := by
      refine ((sortByKey_perm key _).trans ?_).trans (sortByKey_perm key _).symm
      exact (sortByKey_perm key es).append_right [e]
    have hs1 : List.Sorted (keyLt key) (sortByKey key (sortByKey key es ++ [e])) := by
      apply sortByKey_strict
      rw [List.pairwise_append]
      refine ⟨((sortByKey_perm key es).pairwise_iff (fun hab => Ne.symm hab)).mpr hes,
        List.pairwise_singleton _ _, fun a ha b hb => ?_⟩
      rw [List.mem_singleton.mp hb]
      exact hkeys a ha
    have hs2 : List.Sorted (keyLt key) (sortByKey key (es ++ [e])) := by
      apply sortByKey_strict
      rw [List.pairwise_append]
      refine ⟨hes, List.pairwise_singleton _ _, fun a ha b hb => ?_⟩
      rw [List.mem_singleton.mp hb]
      exact hee a ha
    rw [List.eq_of_perm_of_sorted hperm2 hs1 hs2]

/-! ### History entries

The per-region history entry built in update_region_history (lines 184 to
191 of knmi_qg_regions.py): the ISO timestamp string, the three aggregated
metrics and the derived output through _maybe_float (null preserving), and
stations_count through _safe_int. -/

structure HistoryEntry where
  observation_time : String
  qg_mean : Option ℚ
  wind_speed_mean : Option ℚ
  wind_direction_mean : Option ℝ
  estimated_output_mw : Option ℚ
  stations_count : Nat

/-- The history update for one region (knmi_qg_regions.py lines 192 to 201)
or one station (fetch_station_metrics.py lines 294 to 299), on entries
parsed from a well-formed history document. The new entry always carries
the observation time of the running cycle. -/
def updateWindow (prior : List HistoryEntry) (entry : HistoryEntry)
    (maxPoints : Nat) : List HistoryEntry :=
  windowUpdate HistoryEntry.observation_time prior entry
    entry.observation_time maxPoints

/-! ### The circular mean

_circular_mean (knmi_qg_regions.py lines 90 to 100): drop nulls, convert
degrees to radians, average the sine and cosine components, recombine with
math.atan2 and convert back to degrees, normalizing a negative result by
adding 360. math.atan2 has range (-pi, pi] with atan2(0, 0) = 0, exactly
the complex argument of the point (x, y). -/

noncomputable def atan2 (y x : ℝ) : ℝ := Complex.arg ⟨x, y⟩

noncomputable def deg2rad (d : ℝ) : ℝ := d * Real.pi / 180

noncomputable def meanSin (values : List ℝ) : ℝ :=
  ((values.map deg2rad).map Real.sin).sum / values.length

noncomputable def meanCos (values : List ℝ) : ℝ :=
  ((values.map deg2rad).map Real.cos).sum / values.length

noncomputable def normalizeDeg (angle : ℝ) : ℝ :=
  if angle < 0 then angle + 360 else angle

noncomputable def _circular_mean (series : List (Option ℝ)) : Option ℝ :=
  if (series.filterMap id).length = 0 then none
  else
    some (normalizeDeg (atan2 (meanSin (series.filterMap id))
      (meanCos (series.filterMap id)) * 180 / Real.pi))

theorem atan2_sin_cos {θ : ℝ} (hθ : θ ∈ Set.Ioc (-Real.pi) Real.pi) :
    atan2 (Real.sin θ) (Real.cos θ) = θ := by
  unfold atan2
  rw [Complex.mk_eq_add_mul_I, Complex.ofReal_cos, Complex.ofReal_sin,
    Complex.arg_cos_add_sin_mul_I hθ]

theorem atan2_deg_bounds (y x : ℝ) :
    -180 < atan2 y x * 180 / Real.pi ∧ atan2 y x * 180 / Real.pi ≤ 180 := by
  have hpi := Real.pi_pos
  have h1 := Complex.neg_pi_lt_arg ⟨x, y⟩
  have h2 := Complex.arg_le_pi ⟨x, y⟩
  unfold atan2
  constructor
  · rw [lt_div_iff₀ hpi]
    nlinarith
  · rw [div_le_iff₀ hpi]
    nlinarith

theorem normalizeDeg_mem {angle : ℝ} (h1 : -180 < angle) (h2 : angle ≤ 180) :
    0 ≤ normalizeDeg angle ∧ normalizeDeg angle < 360 := by
  unfold normalizeDeg
  split
  · constructor <;> linarith
  · constructor
    · linarith [not_lt.mp (by assumption)]
    · linarith

theorem circular_mean_range {series : List (Option ℝ)} {a : ℝ}
    (h : _circular_mean series = some a) : 0 ≤ a ∧ a < 360 := by
  unfold _circular_mean at h
  split at h
  · exact absurd h (by simp)
  · have ha : a = normalizeDeg (atan2 (meanSin (series.filterMap id))
        (meanCos (series.filterMap id)) * 180 / Real.pi) := by
      injection h.symm
    obtain ⟨hb1, hb2⟩ := atan2_deg_bounds (meanSin (series.filterMap id))
      (meanCos (series.filterMap id))
    rw [ha]
    exact normalizeDeg_mem hb1 hb2

theorem circular_mean_none {series : List (Option ℝ)}
    (h : ∀ v ∈ series, v = none) : _circular_mean series = none := by
  unfold _circular_mean
  have : series.filterMap id = [] :=
    List.filterMap_eq_nil_iff.mpr (fun a ha => h a ha)
  rw [this]
  simp

theorem circular_mean_single {x : ℝ} (h0 : 0 ≤ x) (h1 : x < 360) :
    _circular_mean [some x] = some x := by
  have hpi := Real.pi_pos
  have hpine := Real.pi_ne_zero
  have hfm : (([some x] : List (Option ℝ)).filterMap id) = [x] := rfl
  unfold _circular_mean
  rw [hfm]
  simp only [List.length_singleton, Nat.one_ne_zero, if_false]
  have hms : meanSin [x] = Real.sin (deg2rad x) := by
    unfold meanSin
    simp
  have hmc : meanCos [x] = Real.cos (deg2rad x) := by
    unfold meanCos
    simp
  rw [hms, hmc]
  by_cases hx : x ≤ 180
  · have hmem : deg2rad x ∈ Set.Ioc (-Real.pi) Real.pi := by
      unfold deg2rad
      constructor
      · nlinarith
      · nlinarith
    rw [atan2_sin_cos hmem]
    have hangle : deg2rad x * 180 / Real.pi = x := by
      unfold deg2rad
      field_simp
    rw [hangle]
    unfold normalizeDeg
    rw [if_neg (not_lt.mpr h0)]
  · push_neg at hx
    have hsub : deg2rad x = (deg2rad x - 2 * Real.pi) + 2 * Real.pi := by ring
    have hsin : Real.sin (deg2rad x) = Real.sin (deg2rad x - 2 * Real.pi) := by
      conv_lhs => rw [hsub]
      exact Real.sin_add_two_pi _
    have hcos : Real.cos (deg2rad x) = Real.cos (deg2rad x - 2 * Real.pi) := by
      conv_lhs => rw [hsub]
      exact Real.cos_add_two_pi _
    rw [hsin, hcos]
    have hmem : deg2rad x - 2 * Real.pi ∈ Set.Ioc (-Real.pi) Real.pi := by
      unfold deg2rad
      constructor
      · nlinarith
      · nlinarith
    rw [atan2_sin_cos hmem]
    have hangle : (deg2rad x - 2 * Real.pi) * 180 / Real.pi = x - 360 := by
      unfold deg2rad
      field_simp
      ring
    rw [hangle]
    unfold normalizeDeg
    rw [if_pos (by linarith)]
    norm_num

theorem circular_mean_pair :
    _circular_mean [some 10, some 350] = some 0 := by
  have hpi := Real.pi_pos
  have hfm : (([some 10, some 350] : List (Option ℝ)).filterMap id) =
      [10, 350] := rfl
  unfold _circular_mean
  rw [hfm]
  simp only [List.length_cons, List.length_singleton, if_false]
  have h350 : deg2rad 350 = -(deg2rad 10) + 2 * Real.pi := by
    unfold deg2rad
    ring
  have hsin350 : Real.sin (deg2rad 350) = -Real.sin (deg2rad 10) := by
    rw [h350, Real.sin_add_two_pi, Real.sin_neg]
  have hcos350 : Real.cos (deg2rad 350) = Real.cos (deg2rad 10) := by
    rw [h350, Real.cos_add_two_pi, Real.cos_neg]
  have hms : meanSin [10, 350] = 0 := by
    unfold meanSin
    simp only [List.map_cons, List.map_nil, List.sum_cons, List.sum_nil,
      List.length_cons, List.length_singleton]
    rw [hsin350]
    norm_num
  have hmc : meanCos [10, 350] = Real.cos (deg2rad 10) := by
    unfold meanCos
    simp only [List.map_cons, List.map_nil, List.sum_cons, List.sum_nil,
      List.length_cons, List.length_nil, hcos350]
    push_cast
    ring
  rw [hms, hmc]
  have hcospos : 0 ≤ Real.cos (deg2rad 10) := by
    apply Real.cos_nonneg_of_mem_Icc
    unfold deg2rad
    constructor
    · nlinarith
    · nlinarith
  have hatan : atan2 0 (Real.cos (deg2rad 10)) = 0 := by
    unfold atan2
    have hc : (⟨Real.cos (deg2rad 10), 0⟩ : ℂ) = ((Real.cos (deg2rad 10) : ℝ) : ℂ) := by
      rw [Complex.mk_eq_add_mul_I]
      simp
    rw [hc]
    exact Complex.arg_ofReal_of_nonneg hcospos
  rw [hatan]
  unfold normalizeDeg
  norm_num

/-! ### JSON documents

A JSON value as produced by json.loads. JSON numbers are decimal literals,
modelled by rationals. PyError names the uncaught Python exception raised
by an operation on a value of the wrong shape. -/

inductive Json where
  | null
  | bool (b : Bool)
  | num (q : ℚ)
  | str (s : String)
  | arr (items : List Json)
  | obj (fields : List (String × Json))

inductive PyError where
  | attributeError
  | typeError
  | keyError
deriving DecidableEq

/-- Python dict.get(k, d): attribute access on a non-dict raises. -/
def Json.get (j : Json) (k : String) (d : Json) : Except PyError Json :=
  match j with
  | .obj kvs => .ok ((kvs.lookup k).getD d)
  | _ => .error .attributeError

/-- Python subscript j[k]: missing key raises KeyError, non-dict TypeError. -/
def Json.item (j : Json) (k : String) : Except PyError Json :=
  match j with
  | .obj kvs =>
    match kvs.lookup k with
    | some v => .ok v
    | none => .error .keyError
  | _ => .error .typeError

/-- Python iteration: a list yields items, a dict its keys, a string its
characters; other values raise TypeError. -/
def Json.iter : Json → Except PyError (List Json)
  | .arr xs => .ok xs
  | .obj kvs => .ok (kvs.map fun kv => Json.str kv.1)
  | .str s => .ok (s.toList.map fun c => Json.str c.toString)
  | _ => .error .typeError

/-- Python truthiness of a JSON value. -/
def Json.truthy : Json → Bool
  | .null => false
  | .bool b => b
  | .num q => q != 0
  | .str s => s != ""
  | .arr xs => !xs.isEmpty
  | .obj kvs => !kvs.isEmpty

/-- The state of the persisted history document on disk before a cycle. -/
inductive FileState where
  | missing
  | unparseable
  | parsed (j : Json)

/-! ### Spatial aggregation

aggregate_regions (knmi_qg_regions.py lines 107 to 157). An Observation is
one row of the station frame after pd.to_numeric coercion of the
coordinates. A RegionRow is one row of the boundary dataset: its name, its
polygon abstracted as the shapely within predicate over (lon, lat), the
optional static solar_capacity_mw value, and its geometry already in
GeoJSON form (the composition of the stored shapely geometry and the later
mapping call). Whether the boundary dataset carries the solar_capacity_mw
column at all is a property of the whole frame in pandas, so it is passed
as a separate flag.

The sjoin with predicate within and how left pairs every valid station
with every region row containing its point, so joinedFor collects, with
multiplicity, the observations grouped under one region name; nunique of
the station column is the number of distinct station ids in the group.
The final left merge back onto the regions frame preserves the boundary
file row order and matches each region row with the single aggregate row
of its name, filling regions without a group with 0.0 and 0. -/

structure Observation where
  station : String
  longitude : Option ℚ
  latitude : Option ℚ
  qg : Option ℚ
  ff : Option ℚ
  dd : Option ℝ

structure RegionRow where
  name : String
  within : ℚ → ℚ → Bool
  solar_capacity_mw : Option ℚ
  geometry : Option Json

structure RegionAggregate where
  name : String
  qg_mean : ℚ
  wind_speed_mean : ℚ
  wind_direction_mean : Option ℝ
  stations_count : Nat
  estimated_output_mw : Option ℚ
  solar_capacity_mw : Option ℚ
  geometry : Option Json

def validCoords (o : Observation) : Bool :=
  o.longitude.isSome && o.latitude.isSome

def joinedFor (working : List Observation) (regions : List RegionRow)
    (n : String) : List Observation :=
  working.flatMap fun o =>
    (regions.filter fun r =>
      r.name == n && r.within (o.longitude.getD 0) (o.latitude.getD 0)).map
        fun _ => o

def meanOpt (vals : List ℚ) : Option ℚ :=
  if vals.length = 0 then none else some (vals.sum / vals.length)

noncomputable def aggRow (working : List Observation)
    (regions : List RegionRow) (hasCapacityCol : Bool) (r : RegionRow) :
    RegionAggregate :=
  let grp := joinedFor working regions r.name
  let qgM := (meanOpt (grp.filterMap Observation.qg)).getD 0
  { name := r.name
    qg_mean := qgM
    wind_speed_mean := (meanOpt (grp.filterMap Observation.ff)).getD 0
    wind_direction_mean := _circular_mean (grp.map Observation.dd)
    stations_count := (grp.map Observation.station).dedup.length
    estimated_output_mw :=
      if hasCapacityCol then some (r.solar_capacity_mw.getD 0 * qgM / 1000)
      else none
    solar_capacity_mw := r.solar_capacity_mw
    geometry := r.geometry }

noncomputable def aggregate_regions (df : List Observation)
    (regions : List RegionRow) (hasCapacityCol : Bool) :
    Except String (List RegionAggregate) :=
  let working := df.filter validCoords
  if working.isEmpty then
    Except.error "No station rows with valid coordinates were found."
  else
    Except.ok (regions.map (aggRow working regions hasCapacityCol))

/-! ### The region history document

update_region_history (knmi_qg_regions.py lines 160 to 223) at the level
of the persisted JSON document. Loading mirrors the code exactly: a
missing file and a json.JSONDecodeError both leave existing = {}, while
any successfully parsed JSON value is used as is, so a parsed document of
the wrong shape raises on the first attribute access.

The feature map is keyed by the properties.name of each feature. Python keeps a
feature under any truthy name value; a truthy non-string name can only
come from a hand-edited document, and then the later sorted() call
comparing mixed key types raises TypeError, which the model raises at map
construction instead. No claim depends on that corner.

Entries of a prior window live in the document as JSON values, while the
entry appended for the current cycle is a typed HistoryEntry, so the
window of a rebuilt feature is a list of the sum of both. The sort key and
the dedup comparison use the expression h.get("observation_time") or ""
from the code: entries lacking a truthy string value are keyed by the
empty string (an entry that is not a dict raises, and a truthy non-string
time would raise TypeError inside the sort, modelled up front). -/

abbrev WEntry := Sum Json HistoryEntry

def wkey : WEntry → String
  | .inl j =>
    match j with
    | .obj kvs =>
      match kvs.lookup "observation_time" with
      | some (Json.str s) => s
      | _ => ""
    | _ => ""
  | .inr e => e.observation_time

def checkEntry (j : Json) : Except PyError Unit :=
  match j with
  | .obj kvs =>
    match kvs.lookup "observation_time" with
    | some v =>
      if v.truthy then
        match v with
        | Json.str _ => .ok ()
        | _ => .error .typeError
      else .ok ()
    | none => .ok ()
  | _ => .error .attributeError

structure BuiltFeature where
  name : String
  geometry : Option Json
  history : List WEntry
  latest : Option WEntry
  max_history : Nat

abbrev FeatVal := Sum Json BuiltFeature

/-- Replacement insert keyed by name, matching Python dict assignment. -/
def upsert {β : Type} (m : List (String × β)) (k : String) (v : β) :
    List (String × β) :=
  if m.any fun kv => kv.1 == k then
    m.map fun kv => if kv.1 == k then (k, v) else kv
  else m ++ [(k, v)]

def loadExisting : FileState → Json
  | .missing => .obj []
  | .unparseable => .obj []
  | .parsed j => j

def buildFeatureMap (existing : Json) : Except PyError (List (String × Json)) := do
  let featsJ ← existing.get "features" (Json.arr [])
  let feats ← featsJ.iter
  feats.foldlM
    (fun m f => do
      let props ← f.get "properties" (Json.obj [])
      let nameJ ← props.get "name" Json.null
      match nameJ with
      | Json.str s => if s = "" then pure m else pure (upsert m s f)
      | _ =>
        if nameJ.truthy then Except.error PyError.typeError
        else pure m)
    []

/-- The entry dict built for one region row (lines 184 to 191): the cycle
observation time, the metrics through _maybe_float and _safe_int. -/
def rowEntry (row : RegionAggregate) (t : String) : HistoryEntry :=
  { observation_time := t
    qg_mean := some row.qg_mean
    wind_speed_mean := some row.wind_speed_mean
    wind_direction_mean := row.wind_direction_mean
    estimated_output_mw := row.estimated_output_mw
    stations_count := row.stations_count }

/-- The prior window for one region name: absent from the map means an
empty history; a feature rebuilt earlier in this same cycle contributes
its already-validated window; a feature from the prior document is
unpacked from JSON, raising on any wrongly-shaped piece. -/
def priorEntries (m : List (String × FeatVal)) (n : String) :
    Except PyError (List WEntry) :=
  match m.lookup n with
  | none => .ok []
  | some (Sum.inr bf) => .ok bf.history
  | some (Sum.inl f) => do
    let props ← f.item "properties"
    let histJ ← props.get "history" (Json.arr [])
    let items ← histJ.iter
    items.mapM fun h => (checkEntry h).map fun _ => (Sum.inl h : WEntry)

def historyStep (t : String) (maxPoints : Nat) (m : List (String × FeatVal))
    (row : RegionAggregate) : Except PyError (List (String × FeatVal)) :=
  if row.name = "" then pure m
  else do
    let prior ← priorEntries m row.name
    let window := windowUpdate wkey prior (Sum.inr (rowEntry row t)) t maxPoints
    let feature : BuiltFeature :=
      { name := row.name
        geometry := row.geometry
        history := window
        latest := window.getLast?
        max_history := maxPoints }
    pure (upsert m row.name (Sum.inr feature))

/-- The written document: features in ascending name order, plus the
generated_at stamp and the max_history setting (the constant
FeatureCollection type tag is omitted). -/
structure Payload where
  features : List (String × FeatVal)
  generated_at : String
  max_history : Nat

def update_region_history (file : FileState) (rows : List RegionAggregate)
    (observation_time : String) (maxPoints : Nat) : Except PyError Payload := do
  let m0 ← buildFeatureMap (loadExisting file)
  let m ← rows.foldlM (historyStep observation_time maxPoints)
    (m0.map fun kv => (kv.1, (Sum.inl kv.2 : FeatVal)))
  pure { features := sortByKey (fun kv => kv.1) m
         generated_at := observation_time
         max_history := maxPoints }

/-- _load_station_history (fetch_station_metrics.py lines 213 to 222): a
missing file or a JSON syntax error yields the empty store; a parsed
document must be a dict (the attribute access raises otherwise, since only
json.JSONDecodeError is caught), and a stations value that is not a dict
falls through to the empty store. -/
def _load_station_history : FileState → Except PyError Json
  | .missing => .ok (.obj [])
  | .unparseable => .ok (.obj [])
  | .parsed payload => do
    let s ← payload.get "stations" (.obj [])
    match s with
    | .obj kvs => pure (Json.obj kvs)
    | _ => pure (.obj [])

/-! ### The station history update

update_station_history (fetch_station_metrics.py lines 267 to 304). One
StationDfRow is one row of the fetched station frame as the itertuples
loop sees it: the station id as a string, the observation time already
through _ensure_utc_iso (None for a missing or NaT value), the source
filename, and the coordinate and metric columns through _maybe_float.
The or now_iso expression falls back to the current time for a missing or
empty observation time.

A station meta dict is mutated in place: lat, lon and history are
assigned, every other field of a prior meta dict survives, kept here as
the base field. As in the region model, entries of a prior window are raw
JSON while the appended entry is typed, and the mutation of a prior meta
requires it to be a dict (the lat assignment raises TypeError otherwise).
Persistence of the two output files serializes the resulting map and is
not modelled; the function returns the stations map itself, as the code
returns the stations dict. -/

structure StationDfRow where
  station : String
  observation_time : Option String
  source_filename : Option String
  latitude : Option ℚ
  longitude : Option ℚ
  qg : Option ℚ
  ff : Option ℚ
  dd : Option ℝ

structure StationEntry where
  observation_time : String
  source_filename : Option String
  qg : Option ℚ
  ff : Option ℚ
  dd : Option ℝ

structure StationMeta where
  base : Option Json
  lat : Option ℚ
  lon : Option ℚ
  history : List (Sum Json StationEntry)

abbrev WEntryS := Sum Json StationEntry

abbrev StationVal := Sum Json StationMeta

def skey : WEntryS → String
  | .inl j =>
    match j with
    | .obj kvs =>
      match kvs.lookup "observation_time" with
      | some (Json.str s) => s
      | _ => ""
    | _ => ""
  | .inr e => e.observation_time

def obsIsoOf (row : StationDfRow) (nowIso : String) : String :=
  match row.observation_time with
  | some s => if s = "" then nowIso else s
  | none => nowIso

def stationEntryOf (row : StationDfRow) (nowIso : String) : StationEntry :=
  { observation_time := obsIsoOf row nowIso
    source_filename := row.source_filename
    qg := row.qg
    ff := row.ff
    dd := row.dd }

/-- The body of the per-row loop: setdefault gives a fresh meta with an
empty history for a new station id, the meta built earlier this cycle for
a repeated id, or the prior JSON meta, whose history list is unpacked and
validated; then lat and lon are assigned and the shared window update
runs. -/
def stationStep (nowIso : String) (maxPoints : Nat)
    (m : List (String × StationVal)) (row : StationDfRow) :
    Except PyError (List (String × StationVal)) := do
  let obsIso := obsIsoOf row nowIso
  let entry := stationEntryOf row nowIso
  let bp ← (match m.lookup row.station with
    | none => Except.ok ((none : Option Json), ([] : List WEntryS))
    | some (Sum.inr sm) => Except.ok (sm.base, sm.history)
    | some (Sum.inl j) =>
      match j with
      | Json.obj kvs => do
        let histJ := (kvs.lookup "history").getD (Json.arr [])
        let items ← histJ.iter
        let checked ← items.mapM fun h =>
          (checkEntry h).map fun _ => (Sum.inl h : WEntryS)
        pure ((some (Json.obj kvs) : Option Json), checked)
      | _ => Except.error PyError.typeError)
  let window := windowUpdate skey bp.2 (Sum.inr entry) obsIso maxPoints
  pure (upsert m row.station
    (Sum.inr ⟨bp.1, row.latitude, row.longitude, window⟩))

def update_station_history (file : FileState) (df : List StationDfRow)
    (nowIso : String) (maxPoints : Nat) :
    Except PyError (List (String × StationVal)) := do
  let stationsJ ← _load_station_history file
  let m0 := (match stationsJ with
    | Json.obj kvs => kvs.map fun kv => (kv.1, (Sum.inl kv.2 : StationVal))
    | _ => [])
  df.foldlM (stationStep nowIso maxPoints) m0

/-! ### Publish coordination in run_once

The tail of run_once (knmi_qg_regions.py lines 311 to 365). After the
aggregate succeeds, the local snapshot is always written, the local
history and station files when configured, and then each configured
remote upload is attempted in the fixed source order: S3 snapshot, S3
history, S3 stations, GitHub snapshot, GitHub history, GitHub stations.
upload_s3 and upload_github raise RuntimeError on any failure (boto3
missing, a failed transfer, a GitHub response outside 200 and 201 such as
a conditional-write conflict); a missing GitHub token raises before the
attempt. There is no try block around any of this in run_once, so the
first raise propagates out of the function. The fail oracle says which
sink writes would raise. -/

inductive SinkWrite where
  | localSnapshot
  | localHistory
  | localStations
  | s3Snapshot
  | s3History
  | s3Stations
  | ghSnapshot
  | ghHistory
  | ghStations
deriving DecidableEq

inductive UploadAction where
  | attempt (s : SinkWrite)
  | abortMissingToken
deriving DecidableEq

inductive PublishError where
  | missingToken
  | uploadFailed (s : SinkWrite)
deriving DecidableEq

structure PublishConfig where
  history_out : Option String
  stations_out : Option String
  s3_bucket : Option String
  s3_key : Option String
  s3_history_key : Option String
  s3_stations_key : Option String
  gh_repo : Option String
  gh_path : Option String
  gh_history_path : Option String
  gh_stations_path : Option String
  gh_token : Option String
  env_github_token : Option String

/-- The sequence of upload attempts determined by the configuration, in
the order the code issues them; a configured GitHub target without a
token (flag or GITHUB_TOKEN) becomes an immediate RuntimeError. -/
def uploadSteps (cfg : PublishConfig) : List UploadAction :=
  let token := cfg.gh_token.or cfg.env_github_token
  (if cfg.s3_bucket.isSome && cfg.s3_key.isSome
    then [UploadAction.attempt SinkWrite.s3Snapshot] else []) ++
  (if cfg.s3_bucket.isSome && cfg.s3_history_key.isSome && cfg.history_out.isSome
    then [UploadAction.attempt SinkWrite.s3History] else []) ++
  (if cfg.s3_bucket.isSome && cfg.stations_out.isSome && cfg.s3_stations_key.isSome
    then [UploadAction.attempt SinkWrite.s3Stations] else []) ++
  (if cfg.gh_repo.isSome && cfg.gh_path.isSome
    then (if token.isSome then [UploadAction.attempt SinkWrite.ghSnapshot]
      else [UploadAction.abortMissingToken]) else []) ++
  (if cfg.gh_repo.isSome && cfg.gh_history_path.isSome && cfg.history_out.isSome
    then (if token.isSome then [UploadAction.attempt SinkWrite.ghHistory]
      else [UploadAction.abortMissingToken]) else []) ++
  (if cfg.gh_repo.isSome && cfg.stations_out.isSome && cfg.gh_stations_path.isSome
    then (if token.isSome then [UploadAction.attempt SinkWrite.ghStations]
      else [UploadAction.abortMissingToken]) else [])

/-- Sequential execution of the upload attempts: the first raise ends the
run, skipping everything after it. Returns the sink writes performed and
the error that escaped run_once, if any. -/
def runUploads (fail : SinkWrite → Bool) :
    List UploadAction → List SinkWrite × Option PublishError
  | [] => ([], none)
  | UploadAction.abortMissingToken :: _ => ([], some PublishError.missingToken)
  | UploadAction.attempt s :: rest =>
    if fail s then ([], some (PublishError.uploadFailed s))
    else
      let r := runUploads fail rest
      (s :: r.1, r.2)

def localWrites (cfg : PublishConfig) : List SinkWrite :=
  [SinkWrite.localSnapshot] ++
  (if cfg.history_out.isSome then [SinkWrite.localHistory] else []) ++
  (if cfg.stations_out.isSome then [SinkWrite.localStations] else [])

/-- The write phase of run_once: local artifacts first, then the uploads
until the first failure. -/
def run_once_publish (cfg : PublishConfig) (fail : SinkWrite → Bool) :
    List SinkWrite × Option PublishError :=
  let r := runUploads fail (uploadSteps cfg)
  (localWrites cfg ++ r.1, r.2)

/-! ### The Grafana snapshot refresh

_refresh_once (knmi_to_grafana.py lines 43 to 59). The shared state is the
pair of the last-good station frame and its refresh timestamp. A failed
fetch logs and returns before either is assigned; a successful fetch
renames the coordinate columns and swaps both fields in together under the
lock. The frame content is irrelevant here and left abstract. -/

structure ServerState (Frame : Type) where
  latest_df : Option Frame
  last_refresh : Option String

def _refresh_once {Frame : Type} (rename : Frame → Frame)
    (fetch : Except String Frame) (now : String) (s : ServerState Frame) :
    ServerState Frame :=
  match fetch with
  | .error _ => s
  | .ok df => { latest_df := some (rename df), last_refresh := some now }

/-! ### Remaining helper lemmas -/

theorem sorted_le_getLast {key : α → String} :
    ∀ {l : List α} (hne : l ≠ []), List.Sorted (keyLe key) l →
      ∀ x ∈ l, keyLe key x (l.getLast hne)
  | [], hne, _ => absurd rfl hne
  | [a], _, _ => by
    intro x hx
    rw [List.mem_singleton.mp hx]
    exact le_refl _
  | a :: b :: l, _, hs => by
    intro x hx
    have hne2 : b :: l ≠ [] := List.cons_ne_nil b l
    have hrec := sorted_le_getLast hne2 hs.of_cons
    rw [List.getLast_cons hne2]
    rcases List.mem_cons.mp hx with rfl | hx2
    · exact le_trans
        (List.rel_of_sorted_cons hs b (List.mem_cons_self b l))
        (hrec b (List.mem_cons_self b l))
    · exact hrec x hx2

/-- Sequential history updates for a stream of cycles, each cycle feeding
one entry with its own observation time into the window (windowUpdate is
applied with t equal to the observation time of the incoming entry, as in
run_once). -/
def insertSeq (es : List HistoryEntry) (N : Nat) : List HistoryEntry :=
  es.foldl (fun w e => updateWindow w e N) []

/-- Concrete history entries used by the checks below. -/
def entryA : HistoryEntry := ⟨"a", none, none, none, none, 0⟩

def entryB : HistoryEntry := ⟨"b", none, none, none, none, 0⟩

def entryC : HistoryEntry := ⟨"c", none, none, none, none, 0⟩

/-! ### Claims -/

def attemptOf : UploadAction → Option SinkWrite
  | .attempt t => some t
  | .abortMissingToken => none

theorem runUploads_failure (fail : SinkWrite → Bool) :
    ∀ (steps : List UploadAction) (w : List SinkWrite) (s : SinkWrite),
      runUploads fail steps = (w, some (PublishError.uploadFailed s)) →
      fail s = true ∧
      ∃ pre post, steps = pre ++ UploadAction.attempt s :: post ∧
        w = pre.filterMap attemptOf ∧
        ∀ a ∈ pre, ∃ t, a = UploadAction.attempt t ∧ fail t = false
  | [], w, s => by
    intro h
    simp [runUploads] at h
  | UploadAction.abortMissingToken :: rest, w, s => by
    intro h
    simp [runUploads] at h
  | UploadAction.attempt s0 :: rest, w, s => by
    intro h
    unfold runUploads at h
    by_cases hf : fail s0
    · rw [if_pos hf] at h
      have hs : s0 = s := by
        have := congrArg Prod.snd h
        simp at this
        exact this
      have hwnil : w = [] := by
        have := congrArg Prod.fst h
        simp at this
        exact this
      subst hs
      exact ⟨hf, [], rest, rfl, by simp [hwnil], by intro a ha; cases ha⟩
    · rw [if_neg hf] at h
      have hfst := congrArg Prod.fst h
      have hsnd := congrArg Prod.snd h
      simp at hfst hsnd
      obtain ⟨hfail, pre, post, hsteps, hw, hpre⟩ :=
        runUploads_failure fail rest (runUploads fail rest).1 s
          (by rw [← hsnd])
      refine ⟨hfail, UploadAction.attempt s0 :: pre, post, by rw [hsteps]; rfl, ?_, ?_⟩
      · rw [← hfst, List.filterMap_cons]
        simp [attemptOf, hw]
      · intro a ha
        rcases List.mem_cons.mp ha with rfl | ha2
        · exact ⟨s0, rfl, by simpa using hf⟩
        · exact hpre a ha2

/-- A configuration with two remote sinks: an S3 snapshot target and a
GitHub snapshot target with a token provided. -/
def cfgBoth : PublishConfig :=
  { history_out := none
    stations_out := none
    s3_bucket := some "bucket"
    s3_key := some "qg_regions.geojson"
    s3_history_key := none
    s3_stations_key := none
    gh_repo := some "owner/repo"
    gh_path := some "qg_regions.geojson"
    gh_history_path := none
    gh_stations_path := none
    gh_token := some "token"
    env_github_token := none }

/-- Failure oracle: only the S3 snapshot upload raises. -/
def s3Fails : SinkWrite → Bool
  | SinkWrite.s3Snapshot => true
  | _ => false

/-- C1 counterexample: with both an S3 and a GitHub sink configured, a
failing S3 snapshot upload makes run_once raise: the configured GitHub
snapshot write is never performed and the cycle ends in an error rather
than completing with a partial-failure signal. -/
theorem run_once_sink_counterexample :
    run_once_publish cfgBoth s3Fails =
      ([SinkWrite.localSnapshot],
        some (PublishError.uploadFailed SinkWrite.s3Snapshot)) ∧
    UploadAction.attempt SinkWrite.ghSnapshot ∈ uploadSteps cfgBoth ∧
    SinkWrite.ghSnapshot ∉ (run_once_publish cfgBoth s3Fails).1 ∧
    (run_once_publish cfgBoth s3Fails).2 ≠ none := by
  refine ⟨rfl, by decide, by decide, by decide⟩

/-- C1 (amended): the sink writes of run_once are sequential and not
isolated: the first failing sink write raises out of run_once, so the
cycle fails (the CLI loop merely logs the exception) and exactly the local
artifacts plus the uploads configured before the failing sink have been
performed; every upload configured after it is skipped. -/
theorem run_once_sink_failure (cfg : PublishConfig) (fail : SinkWrite → Bool)
    (s : SinkWrite)
    (h : (run_once_publish cfg fail).2 = some (PublishError.uploadFailed s)) :
    fail s = true ∧
    ∃ pre post, uploadSteps cfg = pre ++ UploadAction.attempt s :: post ∧
      (run_once_publish cfg fail).1 = localWrites cfg ++ pre.filterMap attemptOf ∧
      ∀ a ∈ pre, ∃ t, a = UploadAction.attempt t ∧ fail t = false := by
  have hr : runUploads fail (uploadSteps cfg) =
      ((runUploads fail (uploadSteps cfg)).1,
        some (PublishError.uploadFailed s)) := by
    have hsnd : (runUploads fail (uploadSteps cfg)).2 =
        some (PublishError.uploadFailed s) := h
    rw [← hsnd]
  obtain ⟨hfail, pre, post, hsteps, hw, hpre⟩ :=
    runUploads_failure fail (uploadSteps cfg) _ s hr
  exact ⟨hfail, pre, post, hsteps, by
    show localWrites cfg ++ (runUploads fail (uploadSteps cfg)).1 = _
    rw [hw], hpre⟩

/-- C1 witness: the amended statement at the concrete two-sink
configuration. -/
theorem run_once_sink_failure_witness :
    s3Fails SinkWrite.s3Snapshot = true ∧
    ∃ pre post, uploadSteps cfgBoth =
        pre ++ UploadAction.attempt SinkWrite.s3Snapshot :: post ∧
      (run_once_publish cfgBoth s3Fails).1 =
        localWrites cfgBoth ++ pre.filterMap attemptOf ∧
      ∀ a ∈ pre, ∃ t, a = UploadAction.attempt t ∧ s3Fails t = false :=
  run_once_sink_failure cfgBoth s3Fails SinkWrite.s3Snapshot (by decide)

theorem zip_self_map {β : Type} (l : List α) (f : α → β) :
    l.zip (l.map f) = l.map (fun a => (a, f a)) := by
  have := List.zip_map' id f l
  simpa using this

theorem aggregate_error {df : List Observation} (regions : List RegionRow)
    (hasCap : Bool) (h : df.filter validCoords = []) :
    aggregate_regions df regions hasCap =
      Except.error "No station rows with valid coordinates were found." := by
  unfold aggregate_regions
  rw [if_pos (List.isEmpty_iff.mpr h)]

theorem aggregate_ok {df : List Observation} (regions : List RegionRow)
    (hasCap : Bool) (h : df.filter validCoords ≠ []) :
    aggregate_regions df regions hasCap =
      Except.ok (regions.map (aggRow (df.filter validCoords) regions hasCap)) := by
  unfold aggregate_regions
  rw [if_neg (by rw [List.isEmpty_iff]; exact h)]

theorem aggregate_ok_inv {df : List Observation} {regions : List RegionRow}
    {hasCap : Bool} {rows : List RegionAggregate}
    (h : aggregate_regions df regions hasCap = Except.ok rows) :
    rows = regions.map (aggRow (df.filter validCoords) regions hasCap) := by
  unfold aggregate_regions at h
  dsimp only at h
  split at h
  · simp at h
  · injection h with h2
    exact h2.symm

/-- Concrete inputs for the aggregation checks: one station with valid
coordinates and a solar radiation value, and region rows whose containment
predicates are constant. -/
def obsQ : Observation := ⟨"s1", some 5, some 52, some 500, none, none⟩

def regionX : RegionRow := ⟨"x", fun _ _ => true, none, none⟩

def regionA : RegionRow := ⟨"a", fun _ _ => false, none, none⟩

def regionB : RegionRow := ⟨"b", fun _ _ => false, none, none⟩

/-- C2 counterexample: on the empty observation set aggregate_regions does
not return successfully: it raises the data-quality error. -/
theorem aggregate_empty_counterexample :
    aggregate_regions [] [regionX] false =
      Except.error "No station rows with valid coordinates were found." :=
  aggregate_error [regionX] false rfl

/-- C2 (amended): when no observation carries valid coordinates (the empty
set included) aggregate_regions raises a data-quality error instead of
returning; when at least one observation has valid coordinates it returns
exactly one RegionAggregate row per region row, in particular carrying
each region name, and a region name matched by no valid observation gets
stations_count 0 and qg_mean 0.0. -/
theorem aggregate_regions_spec (df : List Observation)
    (regions : List RegionRow) (hasCap : Bool) :
    ((∀ o ∈ df, validCoords o = false) →
      aggregate_regions df regions hasCap =
        Except.error "No station rows with valid coordinates were found.") ∧
    ((∃ o ∈ df, validCoords o = true) →
      ∃ rows, aggregate_regions df regions hasCap = Except.ok rows ∧
        rows.length = regions.length ∧
        rows.map RegionAggregate.name = regions.map RegionRow.name ∧
        ∀ p ∈ regions.zip rows,
          p.2.name = p.1.name ∧
          ((∀ o ∈ df.filter validCoords, ∀ r2 ∈ regions, r2.name = p.1.name →
              r2.within (o.longitude.getD 0) (o.latitude.getD 0) = false) →
            p.2.stations_count = 0 ∧ p.2.qg_mean = 0)) := by
  constructor
  · intro hall
    apply aggregate_error
    rw [List.filter_eq_nil_iff]
    intro o ho
    simp [hall o ho]
  · rintro ⟨o, ho, hv⟩
    have hne : df.filter validCoords ≠ [] := by
      intro hnil
      have := List.filter_eq_nil_iff.mp hnil o ho
      simp [hv] at this
    refine ⟨_, aggregate_ok regions hasCap hne, by simp, ?_, ?_⟩
    · rw [List.map_map]
      exact List.map_congr_left (fun r _ => rfl)
    · intro p hp
      rw [zip_self_map] at hp
      obtain ⟨r, hr, rfl⟩ := List.mem_map.mp hp
      refine ⟨rfl, ?_⟩
      intro hnone
      have hgrp : joinedFor (df.filter validCoords) regions r.name = [] := by
        unfold joinedFor
        rw [List.flatMap_eq_nil_iff]
        intro o2 ho2
        rw [List.map_eq_nil_iff, List.filter_eq_nil_iff]
        intro r2 hr2 hpred
        rw [Bool.and_eq_true] at hpred
        obtain ⟨h1, h2⟩ := hpred
        rw [hnone o2 ho2 r2 hr2 (eq_of_beq h1)] at h2
        exact Bool.false_ne_true h2
      constructor
      · show ((joinedFor (df.filter validCoords) regions r.name).map
          Observation.station).dedup.length = 0
        rw [hgrp]
        rfl
      · show (meanOpt ((joinedFor (df.filter validCoords) regions
          r.name).filterMap Observation.qg)).getD 0 = 0
        rw [hgrp]
        rfl

/-- C2 witness: the aggregate succeeds on one valid observation and one
region. -/
theorem aggregate_regions_spec_witness :
    ∃ rows, aggregate_regions [obsQ] [regionX] false = Except.ok rows ∧
      rows.length = ([regionX] : List RegionRow).length ∧
      rows.map RegionAggregate.name = [regionX].map RegionRow.name ∧
      ∀ p ∈ ([regionX] : List RegionRow).zip rows,
        p.2.name = p.1.name ∧
        ((∀ o ∈ ([obsQ] : List Observation).filter validCoords,
            ∀ r2 ∈ ([regionX] : List RegionRow), r2.name = p.1.name →
            r2.within (o.longitude.getD 0) (o.latitude.getD 0) = false) →
          p.2.stations_count = 0 ∧ p.2.qg_mean = 0) :=
  (aggregate_regions_spec [obsQ] [regionX] false).2
    ⟨obsQ, List.mem_singleton.mpr rfl, rfl⟩

/-- C3 counterexample: the boundary dataset carries the capacity column
but region x itself has a null capacity; its estimated_output_mw is then
present and equal to 0.0 rather than being omitted. -/
theorem estimated_zero_counterexample :
    regionX.solar_capacity_mw = none ∧
    ∃ rows, aggregate_regions [obsQ] [regionX] true = Except.ok rows ∧
      rows.map RegionAggregate.estimated_output_mw = [some 0] := by
  have hne : ([obsQ] : List Observation).filter validCoords ≠ [] := by
    rw [show ([obsQ] : List Observation).filter validCoords = [obsQ] from rfl]
    exact List.cons_ne_nil _ _
  refine ⟨rfl, _, aggregate_ok [regionX] true hne, ?_⟩
  show [(aggRow (List.filter validCoords [obsQ]) [regionX] true
    regionX).estimated_output_mw] = [some 0]
  unfold aggRow
  simp [regionX]

/-- C3 (amended): when the boundary dataset carries the solar_capacity_mw
column, every region row gets estimated_output_mw equal to
(capacity or 0.0) times qg_mean over 1000, so a region whose capacity
value is null gets 0.0, not an omitted field; only when the column is
absent from the dataset is the metric omitted, and then for all regions
alike. -/
theorem estimated_output_spec (df : List Observation)
    (regions : List RegionRow) (hvalid : ∃ o ∈ df, validCoords o = true) :
    (∃ rows, aggregate_regions df regions true = Except.ok rows ∧
      ∀ p ∈ regions.zip rows,
        p.2.estimated_output_mw =
          some (p.1.solar_capacity_mw.getD 0 * p.2.qg_mean / 1000)) ∧
    (∃ rows, aggregate_regions df regions false = Except.ok rows ∧
      ∀ row ∈ rows, row.estimated_output_mw = none) := by
  obtain ⟨o, ho, hv⟩ := hvalid
  have hne : df.filter validCoords ≠ [] := by
    intro hnil
    have := List.filter_eq_nil_iff.mp hnil o ho
    simp [hv] at this
  constructor
  · refine ⟨_, aggregate_ok regions true hne, ?_⟩
    intro p hp
    rw [zip_self_map] at hp
    obtain ⟨r, hr, rfl⟩ := List.mem_map.mp hp
    rfl
  · refine ⟨_, aggregate_ok regions false hne, ?_⟩
    intro row hrow
    obtain ⟨r, hr, rfl⟩ := List.mem_map.mp hrow
    rfl

/-- C3 witness: the amended statement at the concrete observation and
region. -/
theorem estimated_output_spec_witness :
    (∃ rows, aggregate_regions [obsQ] [regionX] true = Except.ok rows ∧
      ∀ p ∈ ([regionX] : List RegionRow).zip rows,
        p.2.estimated_output_mw =
          some (p.1.solar_capacity_mw.getD 0 * p.2.qg_mean / 1000)) ∧
    (∃ rows, aggregate_regions [obsQ] [regionX] false = Except.ok rows ∧
      ∀ row ∈ rows, row.estimated_output_mw = none) :=
  estimated_output_spec [obsQ] [regionX] ⟨obsQ, List.mem_singleton.mpr rfl, rfl⟩

theorem update_ok_features {file : FileState} {rows : List RegionAggregate}
    {t : String} {N : Nat} {payload : Payload}
    (h : update_region_history file rows t N = Except.ok payload) :
    ∃ m, payload = ⟨sortByKey (fun kv => kv.1) m, t, N⟩ := by
  unfold update_region_history at h
  cases hb : buildFeatureMap (loadExisting file) with
  | error e =>
    rw [hb] at h
    simp [Bind.bind, Except.bind] at h
  | ok m0 =>
    rw [hb] at h
    simp only [Bind.bind, Except.bind] at h
    cases hm : rows.foldlM (historyStep t N)
        (m0.map fun kv => (kv.1, (Sum.inl kv.2 : FeatVal))) with
    | error e =>
      rw [hm] at h
      simp at h
    | ok m =>
      rw [hm] at h
      simp only [pure, Except.pure, Except.ok.injEq] at h
      exact ⟨m, h.symm⟩

/-- C4 counterexample: with the boundary dataset listing region b before
region a, the aggregate rows come back in that same order, which is not
ascending by name. -/
theorem aggregate_order_counterexample :
    ∃ rows, aggregate_regions [obsQ] [regionB, regionA] false =
        Except.ok rows ∧
      rows.map RegionAggregate.name = ["b", "a"] ∧
      ¬List.Sorted (fun a b : String => a ≤ b) ["b", "a"] := by
  have hne : ([obsQ] : List Observation).filter validCoords ≠ [] := by
    rw [show ([obsQ] : List Observation).filter validCoords = [obsQ] from rfl]
    exact List.cons_ne_nil _ _
  refine ⟨_, aggregate_ok [regionB, regionA] false hne, rfl, ?_⟩
  intro hs
  have hba : ("b" : String) ≤ "a" :=
    List.rel_of_sorted_cons hs "a" (List.mem_singleton.mpr rfl)
  exact absurd (String.le_iff_toList_le.mp hba) (by decide)

/-- C4 (amended): the rows returned by aggregate_regions follow the
boundary dataset row order, one row per region row with the same name in
the same position; the name-sorted ordering instead applies to the feature
list of the history payload written by update_region_history, which is
always ascending by region name. -/
theorem aggregate_order_spec :
    (∀ (df : List Observation) (regions : List RegionRow) (hasCap : Bool)
        (rows : List RegionAggregate),
      aggregate_regions df regions hasCap = Except.ok rows →
      rows.map RegionAggregate.name = regions.map RegionRow.name) ∧
    (∀ (file : FileState) (rows : List RegionAggregate) (t : String) (N : Nat)
        (payload : Payload),
      update_region_history file rows t N = Except.ok payload →
      List.Sorted (fun a b : String => a ≤ b)
        (payload.features.map Prod.fst)) := by
  constructor
  · intro df regions hasCap rows h
    rw [aggregate_ok_inv h, List.map_map]
    exact List.map_congr_left (fun r _ => rfl)
  · intro file rows t N payload h
    obtain ⟨m, rfl⟩ := update_ok_features h
    have hs := sortByKey_sorted (fun kv : String × FeatVal => kv.1) m
    show List.Pairwise (fun a b : String => a ≤ b)
      ((sortByKey (fun kv : String × FeatVal => kv.1) m).map Prod.fst)
    rw [List.pairwise_map]
    exact hs

/-- C4 witness: a history payload produced from an empty prior document
has its features in sorted order. -/
theorem aggregate_order_spec_witness :
    List.Sorted (fun a b : String => a ≤ b)
      ((⟨[], "T", 3⟩ : Payload).features.map Prod.fst) :=
  aggregate_order_spec.2 FileState.missing [] "T" 3 ⟨[], "T", 3⟩ rfl

/-- C5: _circular_mean averages the sine and cosine components of the
non-null values and recombines them through atan2, so any returned value
lies in [0, 360); it returns none when every input value is null;
circular_mean of [10, 350] is exactly 0 in real arithmetic (and in
particular not 180); and circular_mean of a single value x in [0, 360)
is x itself. -/
theorem circular_mean_spec :
    (∀ (series : List (Option ℝ)) (a : ℝ), _circular_mean series = some a →
      0 ≤ a ∧ a < 360) ∧
    (∀ series : List (Option ℝ), (∀ v ∈ series, v = none) →
      _circular_mean series = none) ∧
    _circular_mean [some 10, some 350] = some 0 ∧
    _circular_mean [some 10, some 350] ≠ some 180 ∧
    (∀ x : ℝ, 0 ≤ x → x < 360 → _circular_mean [some x] = some x) := by
  refine ⟨fun _ _ h => circular_mean_range h, fun _ h => circular_mean_none h,
    circular_mean_pair, ?_, fun _ h0 h1 => circular_mean_single h0 h1⟩
  rw [circular_mean_pair]
  intro h
  have : (0 : ℝ) = 180 := by injection h
  norm_num at this

/-- C5 witness: the single-value and all-null laws evaluated at concrete
inputs. -/
theorem circular_mean_spec_witness :
    _circular_mean [some (90 : ℝ)] = some 90 ∧
    _circular_mean ([none, none] : List (Option ℝ)) = none :=
  ⟨circular_mean_spec.2.2.2.2 90 (by norm_num) (by norm_num),
   circular_mean_spec.2.1 [none, none] (by simp)⟩

/-- C6 (amended): the history update deduplicates by timestamp, but an
entry older than a full window of newer entries is evicted, so applying
the update twice with the identical entry yields the same window as
applying it once, a window that contains at most one entry with the
timestamp T of the entry (exactly one whenever T is at least as recent as every
prior entry) and whose length never exceeds N. -/
theorem history_update_idempotent (w : List HistoryEntry) (e : HistoryEntry)
    (N : Nat) (hN : 1 ≤ N) :
    updateWindow (updateWindow w e N) e N = updateWindow w e N ∧
    (updateWindow w e N).countP
      (fun h => h.observation_time == e.observation_time) ≤ 1 ∧
    ((∀ h ∈ w, h.observation_time ≤ e.observation_time) →
      (updateWindow w e N).countP
        (fun h => h.observation_time == e.observation_time) = 1) ∧
    (updateWindow w e N).length ≤ N :=
  ⟨windowUpdate_idem HistoryEntry.observation_time w e hN,
   countP_key_windowUpdate_le_one HistoryEntry.observation_time w e
     e.observation_time N,
   fun hmax => countP_key_windowUpdate_eq_one HistoryEntry.observation_time
     e hmax N,
   windowUpdate_length_le HistoryEntry.observation_time w e
     e.observation_time hN⟩

/-- C6 counterexample: inserting an entry with timestamp a twice into a
full capacity-1 window already holding a newer entry (timestamp b) leaves
a window with no entry at timestamp a at all, refuting the claim that the
double update always yields exactly one entry at the incoming
timestamp. -/
theorem history_update_dup_counterexample :
    (updateWindow (updateWindow [entryB] entryA 1) entryA 1).countP
      (fun h => h.observation_time == "a") = 0 ∧
    updateWindow (updateWindow [entryB] entryA 1) entryA 1 = [entryB] := by
  constructor
  · rfl
  · rfl

/-- C6 witness: idempotence and single entry at timestamp b for a concrete
window. -/
theorem history_update_idempotent_witness :
    updateWindow (updateWindow [entryA] entryB 2) entryB 2 =
      updateWindow [entryA] entryB 2 ∧
    (updateWindow [entryA] entryB 2).countP
      (fun h => h.observation_time == "b") = 1 :=
  ⟨(history_update_idempotent [entryA] entryB 2 (by norm_num)).1,
   (history_update_idempotent [entryA] entryB 2 (by norm_num)).2.2.1
     (by
       intro h hh
       rw [List.mem_singleton.mp hh]
       exact String.le_iff_toList_le.mpr (by decide))⟩

/-- C7: after every history update the window is sorted ascending by
timestamp; feeding timestamps in the order [T2, T1, T3] with T1 less than
T2 less than T3 yields the window [T1, T2, T3]; feeding N plus 1 entries
with pairwise distinct timestamps into a capacity-N window retains
exactly the N most recent ones, dropping the single oldest; and the
element published as latest is the last of the sorted window, carrying
its greatest timestamp. -/
theorem history_window_sorted_eviction :
    (∀ (w : List HistoryEntry) (e : HistoryEntry) (N : Nat),
      List.Sorted (fun a b => a.observation_time ≤ b.observation_time)
        (updateWindow w e N)) ∧
    (∀ (e1 e2 e3 : HistoryEntry) (N : Nat), 3 ≤ N →
      e1.observation_time < e2.observation_time →
      e2.observation_time < e3.observation_time →
      insertSeq [e2, e1, e3] N = [e1, e2, e3]) ∧
    (∀ (es : List HistoryEntry) (N : Nat), 1 ≤ N → es.length = N + 1 →
      es.Pairwise (fun a b => a.observation_time ≠ b.observation_time) →
      insertSeq es N =
        (sortByKey HistoryEntry.observation_time es).drop 1) ∧
    (∀ (w : List HistoryEntry) (e : HistoryEntry) (N : Nat),
      ∃ latest, (updateWindow w e N).getLast? = some latest ∧
        ∀ h ∈ updateWindow w e N,
          h.observation_time ≤ latest.observation_time) := by
  refine ⟨?_, ?_, ?_, ?_⟩
  · intro w e N
    exact windowUpdate_sorted HistoryEntry.observation_time w e
      e.observation_time N
  · intro e1 e2 e3 N hN h12 h23
    have h13 := lt_trans h12 h23
    have hp : ([e2, e1, e3] : List HistoryEntry).Pairwise
        (fun a b => a.observation_time ≠ b.observation_time) := by
      refine List.Pairwise.cons ?_ (List.Pairwise.cons ?_
        (List.pairwise_singleton _ _))
      · intro x hx
        rcases List.mem_cons.mp hx with rfl | hx2
        · exact ne_of_gt h12
        · rw [List.mem_singleton.mp hx2]
          exact ne_of_lt h23
      · intro x hx
        rw [List.mem_singleton.mp hx]
        exact ne_of_lt h13
    have hfold := fold_windowUpdate HistoryEntry.observation_time N
      (by omega) hp
    have hsort : sortByKey HistoryEntry.observation_time [e2, e1, e3] =
        [e1, e2, e3] := by
      unfold sortByKey
      show List.orderedInsert _ e2
        (List.insertionSort (keyLe HistoryEntry.observation_time) [e1, e3]) = _
      have h13s : List.insertionSort
          (keyLe HistoryEntry.observation_time) [e1, e3] = [e1, e3] := by
        show List.orderedInsert _ e1
          (List.insertionSort (keyLe HistoryEntry.observation_time) [e3]) = _
        rw [show List.insertionSort
          (keyLe HistoryEntry.observation_time) [e3] = [e3] from rfl]
        exact List.orderedInsert_of_le _ _ (le_of_lt h13)
      rw [h13s,
        orderedInsert_cons_notle (r := keyLe HistoryEntry.observation_time)
          (a := e2) (b := e1) [e3]
          (show ¬keyLe HistoryEntry.observation_time e2 e1 from not_le.mpr h12),
        List.orderedInsert_of_le (keyLe HistoryEntry.observation_time)
          (a := e2) (b := e3) []
          (show keyLe HistoryEntry.observation_time e2 e3 from le_of_lt h23)]
    unfold insertSeq
    show List.foldl (fun w e => windowUpdate HistoryEntry.observation_time w e
      e.observation_time N) [] [e2, e1, e3] = [e1, e2, e3]
    rw [hfold, hsort]
    exact takeLast_eq_self (le_trans (by norm_num) hN)
  · intro es N hN hlen hp
    have hfold := fold_windowUpdate HistoryEntry.observation_time N hN hp
    unfold insertSeq
    show List.foldl (fun w e => windowUpdate HistoryEntry.observation_time w e
      e.observation_time N) [] es = _
    rw [hfold]
    unfold takeLast
    rw [if_neg (by omega)]
    have hlen2 : (sortByKey HistoryEntry.observation_time es).length = N + 1 := by
      rw [(sortByKey_perm _ es).length_eq, hlen]
    rw [hlen2]
    congr 1
    omega
  · intro w e N
    have hne := windowUpdate_ne_nil HistoryEntry.observation_time w e
      e.observation_time N
    refine ⟨(updateWindow w e N).getLast hne,
      List.getLast?_eq_getLast _ hne, ?_⟩
    exact sorted_le_getLast hne (windowUpdate_sorted _ w e _ N)

/-- C7 witness: the out-of-order and eviction laws evaluated at concrete
entries. -/
theorem history_window_sorted_eviction_witness :
    insertSeq [entryB, entryA, entryC] 3 = [entryA, entryB, entryC] ∧
    insertSeq [entryA, entryB] 1 =
      (sortByKey HistoryEntry.observation_time [entryA, entryB]).drop 1 :=
  ⟨history_window_sorted_eviction.2.1 entryA entryB entryC 3 (by norm_num)
    (String.lt_iff_toList_lt.mpr (by decide))
    (String.lt_iff_toList_lt.mpr (by decide)),
   history_window_sorted_eviction.2.2.1 [entryA, entryB] 1 (by norm_num)
    (by decide) (by decide)⟩

/-- C9: when the fetch stage of a refresh cycle fails, the shared
last-good snapshot and its refresh timestamp are both left exactly as they
were; on success both are replaced together. -/
theorem refresh_failure_preserves_state {Frame : Type} :
    (∀ (rename : Frame → Frame) (err now : String) (s : ServerState Frame),
      _refresh_once rename (Except.error err) now s = s ∧
      (_refresh_once rename (Except.error err) now s).latest_df = s.latest_df ∧
      (_refresh_once rename (Except.error err) now s).last_refresh =
        s.last_refresh) ∧
    (∀ (rename : Frame → Frame) (df : Frame) (now : String)
        (s : ServerState Frame),
      _refresh_once rename (Except.ok df) now s =
        { latest_df := some (rename df), last_refresh := some now }) :=
  ⟨fun _ _ _ _ => ⟨rfl, rfl, rfl⟩, fun _ _ _ _ => rfl⟩

/-! ### Lemmas about the feature map -/

theorem lookup_mem {β : Type} :
    ∀ {m : List (String × β)} {k : String} {v : β},
      m.lookup k = some v → (k, v) ∈ m := by
  intro m
  induction m with
  | nil =>
    intro k v h
    simp [List.lookup] at h
  | cons kv m ih =>
    intro k v h
    obtain ⟨a, b⟩ := kv
    rw [List.lookup] at h
    cases hb : (k == a) with
    | true =>
      rw [hb] at h
      simp only [Option.some.injEq] at h
      rw [eq_of_beq hb, ← h]
      exact List.mem_cons_self _ _
    | false =>
      rw [hb] at h
      exact List.mem_cons_of_mem _ (ih h)

theorem takeLast_singleton (N : Nat) (x : α) : takeLast N [x] = [x] := by
  by_cases h0 : N = 0
  · unfold takeLast
    rw [if_pos h0]
  · unfold takeLast
    rw [if_neg h0]
    have h1 : ([x] : List α).length - N = 0 := by
      simp only [List.length_singleton]
      omega
    rw [h1, List.drop_zero]

/-- Updating a window in which every entry already carries the incoming
timestamp leaves exactly the new entry. -/
theorem windowUpdate_fresh {key : α → String} {prior : List α} {e : α}
    (hp : ∀ x ∈ prior, key x = key e) (N : Nat) :
    windowUpdate key prior e (key e) N = [e] := by
  unfold windowUpdate
  have hf : prior.filter (fun h => key h != key e) = [] := by
    rw [List.filter_eq_nil_iff]
    intro x hx
    simp [hp x hx]
  rw [hf]
  show takeLast N (sortByKey key [e]) = [e]
  rw [show sortByKey key [e] = [e] from rfl]
  exact takeLast_singleton N e

theorem mem_upsert {β : Type} {m : List (String × β)} {k : String} {v : β}
    {kv : String × β} (h : kv ∈ upsert m k v) : kv ∈ m ∨ kv = (k, v) := by
  unfold upsert at h
  split at h
  · obtain ⟨kv0, hkv0, heq⟩ := List.mem_map.mp h
    by_cases hk : (kv0.1 == k) = true
    · rw [if_pos hk] at heq
      exact Or.inr heq.symm
    · rw [if_neg hk] at heq
      exact Or.inl (heq ▸ hkv0)
  · rcases List.mem_append.mp h with h2 | h2
    · exact Or.inl h2
    · exact Or.inr (List.mem_singleton.mp h2)

theorem lookup_map_replace {β : Type} {k k2 : String} {v : β} (hne : k2 ≠ k) :
    ∀ m : List (String × β),
      (m.map fun kv => if kv.1 == k then (k, v) else kv).lookup k2 =
        m.lookup k2
  | [] => rfl
  | kv :: m => by
    rw [List.map_cons, List.lookup, List.lookup]
    by_cases hk : (kv.1 == k) = true
    · rw [if_pos hk]
      have h1 : (k2 == k) = false := beq_eq_false_iff_ne.mpr hne
      have h2 : (k2 == kv.1) = false := by
        rw [eq_of_beq hk]
        exact h1
      simp only [h1, h2]
      exact lookup_map_replace hne m
    · rw [if_neg hk]
      cases hb : (k2 == kv.1) with
      | true => simp only [hb]
      | false =>
        simp only [hb]
        exact lookup_map_replace hne m

theorem lookup_append_single {β : Type} {k k2 : String} {v : β}
    (hne : k2 ≠ k) :
    ∀ m : List (String × β), (m ++ [(k, v)]).lookup k2 = m.lookup k2
  | [] => by
    rw [List.nil_append, List.lookup, List.lookup]
    simp only [beq_eq_false_iff_ne.mpr hne]
    rfl
  | kv :: m => by
    rw [List.cons_append, List.lookup, List.lookup]
    cases hb : (k2 == kv.1) with
    | true => simp only [hb]
    | false =>
      simp only [hb]
      exact lookup_append_single hne m

theorem lookup_upsert_ne {β : Type} (m : List (String × β)) {k k2 : String}
    (v : β) (hne : k2 ≠ k) : (upsert m k v).lookup k2 = m.lookup k2 := by
  unfold upsert
  split
  · exact lookup_map_replace hne m
  · exact lookup_append_single hne m

theorem lookup_map_val {β γ : Type} (g : β → γ) (k : String) :
    ∀ m : List (String × β),
      (m.map fun kv => (kv.1, g kv.2)).lookup k = (m.lookup k).map g
  | [] => rfl
  | kv :: m => by
    rw [List.map_cons, List.lookup, List.lookup]
    cases hb : (k == kv.1) with
    | true => simp only [hb, Option.map_some']
    | false =>
      simp only [hb]
      exact lookup_map_val g k m

theorem lookup_map_replace_self {β : Type} {k : String} {v : β} :
    ∀ m : List (String × β), (m.any fun kv => kv.1 == k) = true →
      (m.map fun kv => if kv.1 == k then (k, v) else kv).lookup k = some v
  | [], h => by simp at h
  | kv :: m, h => by
    rw [List.map_cons, List.lookup]
    by_cases hk : (kv.1 == k) = true
    · rw [if_pos hk]
      simp only [beq_self_eq_true]
    · rw [if_neg hk]
      have h2 : (k == kv.1) = false := by
        rw [beq_eq_false_iff_ne]
        intro he
        exact hk (by rw [he, beq_self_eq_true])
      simp only [h2]
      rw [List.any_cons] at h
      rcases Bool.or_eq_true_iff.mp h with h3 | h3
      · exact absurd h3 hk
      · exact lookup_map_replace_self m h3

theorem lookup_append_single_self {β : Type} {k : String} {v : β} :
    ∀ m : List (String × β), (m.any fun kv => kv.1 == k) = false →
      (m ++ [(k, v)]).lookup k = some v
  | [], _ => by
    rw [List.nil_append, List.lookup]
    simp only [beq_self_eq_true]
  | kv :: m, h => by
    rw [List.cons_append, List.lookup]
    rw [List.any_cons, Bool.or_eq_false_iff] at h
    have h2 : (k == kv.1) = false := by
      rw [beq_eq_false_iff_ne]
      intro he
      rw [← he, beq_self_eq_true] at h
      exact absurd h.1 (by simp)
    simp only [h2]
    exact lookup_append_single_self m h.2

theorem lookup_upsert_self {β : Type} (m : List (String × β)) (k : String)
    (v : β) : (upsert m k v).lookup k = some v := by
  unfold upsert
  by_cases h : (m.any fun kv => kv.1 == k) = true
  · rw [if_pos h]
    exact lookup_map_replace_self m h
  · rw [if_neg h]
    exact lookup_append_single_self m (Bool.not_eq_true _ ▸ h)

theorem lookup_upsert_isSome {β : Type} (m : List (String × β))
    (k k2 : String) (v : β) (h : (m.lookup k2).isSome = true) :
    ((upsert m k v).lookup k2).isSome = true := by
  by_cases hk : k2 = k
  · subst hk
    rw [lookup_upsert_self]
    rfl
  · rw [lookup_upsert_ne m v hk]
    exact h

theorem lookup_none_of_forall {β : Type} :
    ∀ {m : List (String × β)} {k : String},
      (∀ kv ∈ m, kv.1 ≠ k) → m.lookup k = none
  | [], _, _ => rfl
  | kv :: m, k, h => by
    rw [List.lookup]
    have h2 : (k == kv.1) = false := by
      rw [beq_eq_false_iff_ne]
      intro he
      exact h kv (List.mem_cons_self kv m) he.symm
    simp only [h2]
    exact lookup_none_of_forall (fun kv2 hkv2 => h kv2 (List.mem_cons_of_mem _ hkv2))

/-- Rows whose names all differ from n never touch the feature stored
under n. -/
theorem foldlM_lookup_preserved (t : String) (N : Nat) (n : String) :
    ∀ (rows : List RegionAggregate) (m m2 : List (String × FeatVal)),
      (∀ row ∈ rows, row.name ≠ n) →
      rows.foldlM (historyStep t N) m = Except.ok m2 →
      m2.lookup n = m.lookup n
  | [], m, m2, _, h => by
    rw [List.foldlM_nil] at h
    simp only [pure, Except.pure, Except.ok.injEq] at h
    rw [← h]
  | row :: rows, m, m2, hn, h => by
    rw [List.foldlM_cons] at h
    cases hs : historyStep t N m row with
    | error e =>
      rw [hs] at h
      simp [Bind.bind, Except.bind] at h
    | ok m1 =>
      rw [hs] at h
      simp only [Bind.bind, Except.bind] at h
      have hstep : m1.lookup n = m.lookup n := by
        unfold historyStep at hs
        by_cases hb : row.name = ""
        · rw [if_pos hb] at hs
          simp only [pure, Except.pure, Except.ok.injEq] at hs
          rw [hs]
        · rw [if_neg hb] at hs
          cases hp : priorEntries m row.name with
          | error e =>
            rw [hp] at hs
            simp [Bind.bind, Except.bind] at hs
          | ok prior =>
            rw [hp] at hs
            simp only [Bind.bind, Except.bind, pure, Except.pure,
              Except.ok.injEq] at hs
            rw [← hs]
            exact lookup_upsert_ne m _ (Ne.symm (hn row (List.mem_cons_self row rows)))
      rw [foldlM_lookup_preserved t N n rows m1 m2
        (fun r hr => hn r (List.mem_cons_of_mem _ hr)) h, hstep]

/-- Starting from an empty or freshly-seeded map, every feature after the
fold is a rebuilt feature whose history is the single entry of its row. -/
theorem foldlM_seeded (t : String) (N : Nat) (R : List RegionAggregate) :
    ∀ (rows : List RegionAggregate) (m : List (String × FeatVal)),
      (∀ r ∈ rows, r ∈ R) →
      (∀ kv ∈ m, ∃ bf row0, row0 ∈ R ∧ kv.2 = Sum.inr bf ∧
        bf.name = row0.name ∧ kv.1 = row0.name ∧
        bf.history = [Sum.inr (rowEntry row0 t)] ∧
        bf.latest = some (Sum.inr (rowEntry row0 t))) →
      ∃ m2, rows.foldlM (historyStep t N) m = Except.ok m2 ∧
        (∀ kv ∈ m2, ∃ bf row0, row0 ∈ R ∧ kv.2 = Sum.inr bf ∧
          bf.name = row0.name ∧ kv.1 = row0.name ∧
          bf.history = [Sum.inr (rowEntry row0 t)] ∧
          bf.latest = some (Sum.inr (rowEntry row0 t))) ∧
        (∀ k, (m.lookup k).isSome = true → (m2.lookup k).isSome = true) ∧
        (∀ r ∈ rows, r.name ≠ "" → (m2.lookup r.name).isSome = true)
  | [], m, _, hinv =>
    ⟨m, by rw [List.foldlM_nil]; rfl, hinv, fun _ h => h,
      by intro r hr; cases hr⟩
  | row :: rows, m, hsub, hinv => by
    by_cases hb : row.name = ""
    · have hstep : historyStep t N m row = Except.ok m := by
        unfold historyStep
        rw [if_pos hb]
        rfl
      obtain ⟨m2, hfold, hinv2, hpres, hcov⟩ := foldlM_seeded t N R rows m
        (fun r hr => hsub r (List.mem_cons_of_mem _ hr)) hinv
      refine ⟨m2, by rw [List.foldlM_cons, hstep]; exact hfold, hinv2, hpres, ?_⟩
      intro r hr hrname
      rcases List.mem_cons.mp hr with rfl | hr2
      · exact absurd hb hrname
      · exact hcov r hr2 hrname
    · -- the prior window under this name, if any, carries only entries at t
      have hprior : ∃ prior, priorEntries m row.name = Except.ok prior ∧
          ∀ x ∈ prior, wkey x = t := by
        unfold priorEntries
        cases hl : m.lookup row.name with
        | none => exact ⟨[], rfl, by intro x hx; cases hx⟩
        | some v =>
          obtain ⟨bf, row0, _, hv, _, _, hh, _⟩ := hinv _ (lookup_mem hl)
          have hv2 : v = Sum.inr bf := hv
          rw [hv2]
          refine ⟨bf.history, rfl, ?_⟩
          rw [hh]
          intro x hx
          rw [List.mem_singleton.mp hx]
          rfl
      obtain ⟨prior, hp, hpt⟩ := hprior
      have hwin : windowUpdate wkey prior (Sum.inr (rowEntry row t)) t N =
          [Sum.inr (rowEntry row t)] :=
        windowUpdate_fresh hpt N
      have hstep : historyStep t N m row = Except.ok (upsert m row.name
          (Sum.inr ⟨row.name, row.geometry, [Sum.inr (rowEntry row t)],
            some (Sum.inr (rowEntry row t)), N⟩)) := by
        unfold historyStep
        rw [if_neg hb, hp]
        simp only [Bind.bind, Except.bind, hwin]
        rfl
      obtain ⟨m2, hfold, hinv2, hpres, hcov⟩ := foldlM_seeded t N R rows
        (upsert m row.name (Sum.inr ⟨row.name, row.geometry,
          [Sum.inr (rowEntry row t)], some (Sum.inr (rowEntry row t)), N⟩))
        (fun r hr => hsub r (List.mem_cons_of_mem _ hr))
        (by
          intro kv hkv
          rcases mem_upsert hkv with hm | rfl
          · exact hinv kv hm
          · exact ⟨_, row, hsub row (List.mem_cons_self row rows), rfl, rfl,
              rfl, rfl, rfl⟩)
      refine ⟨m2, by rw [List.foldlM_cons, hstep]; exact hfold, hinv2,
        ?_, ?_⟩
      · intro k hk
        exact hpres k (lookup_upsert_isSome m row.name k _ hk)
      · intro r hr hrname
        rcases List.mem_cons.mp hr with rfl | hr2
        · apply hpres
          rw [lookup_upsert_self]
          rfl
        · exact hcov r hr2 hrname

/-- C8 counterexample: a history document that parses as JSON but has the
wrong shape (a top-level array) makes both the region history update and
the station history load raise an uncaught AttributeError instead of being
treated as empty. -/
theorem corrupt_history_counterexample :
    update_region_history (FileState.parsed (Json.arr [])) [] "T" 3 =
      Except.error PyError.attributeError ∧
    _load_station_history (FileState.parsed (Json.arr [])) =
      Except.error PyError.attributeError :=
  ⟨rfl, rfl⟩

/-- Until a station id is touched by the fold, its stored value does not
change. -/
theorem station_foldlM_lookup_preserved (nowIso : String) (N : Nat)
    (n : String) :
    ∀ (df : List StationDfRow) (m m2 : List (String × StationVal)),
      (∀ r ∈ df, r.station ≠ n) →
      df.foldlM (stationStep nowIso N) m = Except.ok m2 →
      m2.lookup n = m.lookup n
  | [], m, m2, _, h => by
    rw [List.foldlM_nil] at h
    simp only [pure, Except.pure, Except.ok.injEq] at h
    rw [← h]
  | row :: df, m, m2, hn, h => by
    rw [List.foldlM_cons] at h
    cases hs : stationStep nowIso N m row with
    | error e =>
      rw [hs] at h
      simp [Bind.bind, Except.bind] at h
    | ok m1 =>
      rw [hs] at h
      simp only [Bind.bind, Except.bind] at h
      have hstep : m1.lookup n = m.lookup n := by
        unfold stationStep at hs
        cases hbp : (match m.lookup row.station with
          | none => Except.ok ((none : Option Json), ([] : List WEntryS))
          | some (Sum.inr sm) => Except.ok (sm.base, sm.history)
          | some (Sum.inl j) =>
            match j with
            | Json.obj kvs => do
              let histJ := (kvs.lookup "history").getD (Json.arr [])
              let items ← histJ.iter
              let checked ← items.mapM fun h =>
                (checkEntry h).map fun _ => (Sum.inl h : WEntryS)
              pure ((some (Json.obj kvs) : Option Json), checked)
            | _ => Except.error PyError.typeError) with
        | error e =>
          rw [hbp] at hs
          simp [Bind.bind, Except.bind] at hs
        | ok bp =>
          rw [hbp] at hs
          simp only [Bind.bind, Except.bind, pure, Except.pure,
            Except.ok.injEq] at hs
          rw [← hs]
          exact lookup_upsert_ne m _
            (Ne.symm (hn row (List.mem_cons_self row df)))
      rw [station_foldlM_lookup_preserved nowIso N n df m1 m2
        (fun r hr => hn r (List.mem_cons_of_mem _ hr)) h, hstep]

/-- With pairwise distinct station ids, folding the per-row update over a
map containing none of them completes and leaves, under every station id,
the freshly built meta whose history is the single entry of its row. -/
theorem station_fold_ok (nowIso : String) (N : Nat) :
    ∀ (df : List StationDfRow) (m : List (String × StationVal)),
      (∀ kv ∈ m, ∀ r ∈ df, kv.1 ≠ r.station) →
      df.Pairwise (fun a b => a.station ≠ b.station) →
      ∃ m2, df.foldlM (stationStep nowIso N) m = Except.ok m2 ∧
        ∀ r ∈ df, m2.lookup r.station =
          some (Sum.inr ⟨none, r.latitude, r.longitude,
            [Sum.inr (stationEntryOf r nowIso)]⟩)
  | [], m, _, _ =>
    ⟨m, by rw [List.foldlM_nil]; rfl, by intro r hr; cases hr⟩
  | row :: df, m, hdisj, hp => by
    have hlook : m.lookup row.station = none :=
      lookup_none_of_forall
        (fun kv hkv => hdisj kv hkv row (List.mem_cons_self row df))
    have hwin : windowUpdate skey [] (Sum.inr (stationEntryOf row nowIso))
        (obsIsoOf row nowIso) N = [Sum.inr (stationEntryOf row nowIso)] :=
      windowUpdate_fresh (by intro x hx; cases hx) N
    have hstep : stationStep nowIso N m row = Except.ok (upsert m row.station
        (Sum.inr ⟨none, row.latitude, row.longitude,
          [Sum.inr (stationEntryOf row nowIso)]⟩)) := by
      unfold stationStep
      rw [hlook]
      simp only [Bind.bind, Except.bind, hwin]
      rfl
    have hpt := (List.pairwise_cons.mp hp).1
    obtain ⟨m2, hfold, hcov⟩ := station_fold_ok nowIso N df
      (upsert m row.station (Sum.inr ⟨none, row.latitude, row.longitude,
        [Sum.inr (stationEntryOf row nowIso)]⟩))
      (by
        intro kv hkv r hr
        rcases mem_upsert hkv with hm | rfl
        · exact hdisj kv hm r (List.mem_cons_of_mem _ hr)
        · exact hpt r hr)
      (List.pairwise_cons.mp hp).2
    refine ⟨m2, by rw [List.foldlM_cons, hstep]; exact hfold, ?_⟩
    intro r hr
    rcases List.mem_cons.mp hr with rfl | hr2
    · rw [station_foldlM_lookup_preserved nowIso N r.station df _ m2
        (fun r2 hr2 => Ne.symm (hpt r2 hr2)) hfold]
      exact lookup_upsert_self m r.station _
    · exact hcov r hr2

/-- C8 (amended): only a missing file or a JSON syntax error is tolerated:
both history updates then behave exactly as with no prior document and
complete, seeding a fresh single-entry history (whose latest element is
that entry) for every named region row and for every station row of the
snapshot; but a parseable document of the wrong shape raises out of the
loader and fails the cycle. -/
theorem history_load_tolerance (rows : List RegionAggregate)
    (df : List StationDfRow) (t nowIso : String) (N : Nat) :
    update_region_history FileState.unparseable rows t N =
      update_region_history FileState.missing rows t N ∧
    _load_station_history FileState.missing = Except.ok (Json.obj []) ∧
    _load_station_history FileState.unparseable = Except.ok (Json.obj []) ∧
    update_station_history FileState.unparseable df nowIso N =
      update_station_history FileState.missing df nowIso N ∧
    (∃ payload, update_region_history FileState.missing rows t N =
        Except.ok payload ∧
      payload.generated_at = t ∧ payload.max_history = N ∧
      (∀ f ∈ payload.features, ∃ bf row0, row0 ∈ rows ∧
        f.2 = Sum.inr bf ∧ bf.name = row0.name ∧ f.1 = row0.name ∧
        bf.history = [Sum.inr (rowEntry row0 t)] ∧
        bf.latest = some (Sum.inr (rowEntry row0 t))) ∧
      (∀ row ∈ rows, row.name ≠ "" → ∃ bf row0, row0 ∈ rows ∧
        row0.name = row.name ∧
        (row.name, (Sum.inr bf : FeatVal)) ∈ payload.features ∧
        bf.history = [Sum.inr (rowEntry row0 t)] ∧
        bf.latest = some (Sum.inr (rowEntry row0 t)))) ∧
    (df.Pairwise (fun a b => a.station ≠ b.station) →
      ∃ m2, update_station_history FileState.missing df nowIso N =
          Except.ok m2 ∧
        ∀ r ∈ df, m2.lookup r.station =
          some (Sum.inr ⟨none, r.latitude, r.longitude,
            [Sum.inr (stationEntryOf r nowIso)]⟩)) := by
  refine ⟨rfl, rfl, rfl, rfl, ?_, ?_⟩
  · obtain ⟨m2, hfold, hinv, hpres, hcov⟩ := foldlM_seeded t N rows rows []
      (fun r hr => hr) (by intro kv hkv; cases hkv)
    refine ⟨⟨sortByKey (fun kv => kv.1) m2, t, N⟩, ?_, rfl, rfl, ?_, ?_⟩
    · unfold update_region_history
      rw [show buildFeatureMap (loadExisting FileState.missing) =
        Except.ok [] from rfl]
      simp only [Bind.bind, Except.bind, List.map_nil]
      rw [hfold]
      rfl
    · intro f hf
      have hf2 : f ∈ m2 :=
        (sortByKey_perm (fun kv => kv.1) m2).subset hf
      obtain ⟨bf, row0, hr, hv, hn, hk, hh, hl⟩ := hinv f hf2
      exact ⟨bf, row0, hr, hv, hn, hk, hh, hl⟩
    · intro row hrow hname
      have hsome := hcov row hrow hname
      cases hv : m2.lookup row.name with
      | none => rw [hv] at hsome; simp at hsome
      | some v =>
        obtain ⟨bf, row0, hr, hbf, _, hk, hh, hl⟩ :=
          hinv _ (lookup_mem hv)
        have hbf2 : v = Sum.inr bf := hbf
        refine ⟨bf, row0, hr, hk.symm, ?_, hh, hl⟩
        have hmem : (row.name, v) ∈ m2 := lookup_mem hv
        rw [hbf2] at hmem
        exact (sortByKey_perm (fun kv => kv.1) m2).mem_iff.mpr hmem
  · intro hp
    obtain ⟨m2, hfold, hcov⟩ := station_fold_ok nowIso N df []
      (by intro kv hkv; cases hkv) hp
    refine ⟨m2, ?_, hcov⟩
    unfold update_station_history
    rw [show _load_station_history FileState.missing =
      Except.ok (Json.obj []) from rfl]
    simp only [Bind.bind, Except.bind, List.map_nil]
    exact hfold

def sampleRow : RegionAggregate := ⟨"x", 0, 0, none, 0, none, none, none⟩

def sampleStation : StationDfRow :=
  ⟨"s1", some "2024-01-01T00:00:00Z", some "obs.nc", some 52, some 5,
    some 100, none, none⟩

/-- C8 witness: the seeding consequences at one concrete named region row
and one concrete station row. -/
theorem history_load_tolerance_witness :
    (∃ payload,
      update_region_history FileState.missing [sampleRow] "T" 2 =
        Except.ok payload ∧
      payload.generated_at = "T" ∧ payload.max_history = 2 ∧
      (∀ f ∈ payload.features, ∃ bf row0,
        row0 ∈ ([sampleRow] : List RegionAggregate) ∧
        f.2 = Sum.inr bf ∧ bf.name = row0.name ∧ f.1 = row0.name ∧
        bf.history = [Sum.inr (rowEntry row0 "T")] ∧
        bf.latest = some (Sum.inr (rowEntry row0 "T"))) ∧
      (∀ row ∈ ([sampleRow] : List RegionAggregate), row.name ≠ "" →
        ∃ bf row0, row0 ∈ ([sampleRow] : List RegionAggregate) ∧
        row0.name = row.name ∧
        (row.name, (Sum.inr bf : FeatVal)) ∈ payload.features ∧
        bf.history = [Sum.inr (rowEntry row0 "T")] ∧
        bf.latest = some (Sum.inr (rowEntry row0 "T")))) ∧
    (∃ m2, update_station_history FileState.missing [sampleStation] "T0" 2 =
        Except.ok m2 ∧
      ∀ r ∈ ([sampleStation] : List StationDfRow), m2.lookup r.station =
        some (Sum.inr ⟨none, r.latitude, r.longitude,
          [Sum.inr (stationEntryOf r "T0")]⟩)) :=
  ⟨(history_load_tolerance [sampleRow] [sampleStation] "T" "T0" 2).2.2.2.2.1,
   (history_load_tolerance [sampleRow] [sampleStation] "T" "T0" 2).2.2.2.2.2
     (List.pairwise_singleton _ _)⟩

/-- C10: a region name present in the prior history document but absent
from the rows of the current cycle keeps its feature in the written payload
completely unchanged: the raw prior JSON feature (with its history,
latest, geometry and max_history fields) is carried through under its
name. -/
theorem untouched_features_unchanged (file : FileState)
    (rows : List RegionAggregate) (t : String) (N : Nat) (payload : Payload)
    (n : String) (f : Json) (m0 : List (String × Json))
    (hload : buildFeatureMap (loadExisting file) = Except.ok m0)
    (hlook : m0.lookup n = some f)
    (hnames : ∀ row ∈ rows, row.name ≠ n)
    (hrun : update_region_history file rows t N = Except.ok payload) :
    (n, (Sum.inl f : FeatVal)) ∈ payload.features ∧
    payload.generated_at = t ∧ payload.max_history = N := by
  unfold update_region_history at hrun
  rw [hload] at hrun
  simp only [Bind.bind, Except.bind] at hrun
  cases hm : rows.foldlM (historyStep t N)
      (m0.map fun kv => (kv.1, (Sum.inl kv.2 : FeatVal))) with
  | error e =>
    rw [hm] at hrun
    simp at hrun
  | ok m2 =>
    rw [hm] at hrun
    simp only [pure, Except.pure, Except.ok.injEq] at hrun
    have hl0 : (m0.map fun kv => (kv.1, (Sum.inl kv.2 : FeatVal))).lookup n =
        some (Sum.inl f) := by
      rw [lookup_map_val _ n m0, hlook]
      rfl
    have hl2 : m2.lookup n = some (Sum.inl f) := by
      rw [foldlM_lookup_preserved t N n rows _ m2 hnames hm, hl0]
    have hmem : (n, (Sum.inl f : FeatVal)) ∈ m2 := lookup_mem hl2
    rw [← hrun]
    exact ⟨(sortByKey_perm (fun kv => kv.1) m2).mem_iff.mpr hmem, rfl, rfl⟩

def priorFeature : Json :=
  Json.obj [("properties", Json.obj [("name", Json.str "x"),
    ("history", Json.arr [])]), ("geometry", Json.null)]

def priorDoc : FileState :=
  FileState.parsed (Json.obj [("features", Json.arr [priorFeature])])

/-- C10 witness: a prior feature named x with an empty current row list is
carried through verbatim. -/
theorem untouched_features_unchanged_witness :
    ("x", (Sum.inl priorFeature : FeatVal)) ∈
      (⟨[("x", Sum.inl priorFeature)], "T", 3⟩ : Payload).features ∧
    (⟨[("x", Sum.inl priorFeature)], "T", 3⟩ : Payload).generated_at = "T" ∧
    (⟨[("x", Sum.inl priorFeature)], "T", 3⟩ : Payload).max_history = 3 :=
  untouched_features_unchanged priorDoc [] "T" 3
    ⟨[("x", Sum.inl priorFeature)], "T", 3⟩ "x" priorFeature
    [("x", priorFeature)] rfl rfl
    (fun row hr => absurd hr (List.not_mem_nil row)) rfl

end Solar
